import Mathlib

/-!
# statscrobbler: sampling cycle, series store and state file

A shallow embedding of `statscrobbler.go` and `youtube.go`.

* Go values: slices (with the nil slice kept apart from the empty one),
  `map[string]uint64`, `time.Time`, `dataPoint`.
* The part of `encoding/json` the state file goes through: the indented
  encoder and a decoder that reads the first value of a byte stream.
* The operating system as explicit state: the state file's condition on
  disk, the log, a clock, and the faults a write may hit.
* `saveHistoricalData`, `loadHistoricalData`, the closure `updateViewCount`,
  the start of `main`, and `YouTubeSource.GetViewCount`.
-/

namespace Statscrobbler

/-! ## Go values -/

/-- A Go slice value: `none` is the nil slice, `some l` a non-nil slice with
elements `l`.  `viewCounts == nil` tells the two apart; `len` does not. -/
abbrev Slice (α : Type) := Option (List α)

/-- The elements of a slice; the nil slice has none. -/
def Slice.elems {α : Type} : Slice α → List α
  | none => []
  | some l => l

/-- Go `len(s)`. -/
def goLen {α : Type} (s : Slice α) : Nat := s.elems.length

/-- Go `append(s, x)`: always a non-nil slice, the old elements followed by `x`. -/
def goAppend {α : Type} (s : Slice α) (x : α) : Slice α := some (s.elems ++ [x])

/-- Order of two character sequences by code point, first difference decides.
This is the byte order of their UTF-8 forms, the order in which
`encoding/json` and `fmt` list the keys of a map. -/
def ltChars : List Char → List Char → Bool
  | [], [] => false
  | [], _ :: _ => true
  | _ :: _, [] => false
  | a :: as, b :: bs =>
    if a.toNat < b.toNat then true
    else if b.toNat < a.toNat then false
    else ltChars as bs

/-- Key order on map keys. -/
def keyLt (a b : String) : Bool := ltChars a.data b.data

/-- A non-nil `map[string]uint64`, held as its entries in increasing key
order (one entry per key), so that two maps with the same entries are the
same value. -/
abbrev ViewCounts := List (String × Nat)

/-- Go `m[k] = v`. -/
def mapSet : ViewCounts → String → Nat → ViewCounts
  | [], k, v => [(k, v)]
  | (k1, v1) :: rest, k, v =>
    if k = k1 then (k, v) :: rest
    else if keyLt k k1 then (k, v) :: (k1, v1) :: rest
    else (k1, v1) :: mapSet rest k v

/-- Go `v, ok := m[k]`. -/
def mapGet : ViewCounts → String → Option Nat
  | [], _ => none
  | (k1, v1) :: rest, k => if k = k1 then some v1 else mapGet rest k

/-- The keys of a map are strictly increasing: the representation invariant. -/
def keysSorted (m : ViewCounts) : Prop :=
  m.Pairwise (fun a b => keyLt a.1 b.1 = true)

/-- A wall-clock reading as `time.Time` presents it in its own location:
calendar date, time of day, nanoseconds, and the zone offset in minutes east
of UTC.  The monotonic reading and the location name that a `time.Time` also
carries are not part of the model. -/
structure Time where
  year : Nat
  month : Nat
  day : Nat
  hour : Nat
  minute : Nat
  second : Nat
  nano : Nat
  zone : Int
  deriving DecidableEq, Repr

/-- Number of days of a month in the proleptic Gregorian calendar. -/
def daysIn (year month : Nat) : Nat :=
  if month = 2 then
    (if year % 4 = 0 ∧ (year % 100 ≠ 0 ∨ year % 400 = 0) then 29 else 28)
  else if month = 4 ∨ month = 6 ∨ month = 9 ∨ month = 11 then 30
  else 31

/-- A reading the clock can give: a real date and time of day, with a zone
offset of less than a day. -/
def Time.valid (t : Time) : Prop :=
  1 ≤ t.month ∧ t.month ≤ 12 ∧ 1 ≤ t.day ∧ t.day ≤ daysIn t.year t.month ∧
  t.hour < 24 ∧ t.minute < 60 ∧ t.second < 60 ∧ t.nano < 1000000000 ∧
  -1440 < t.zone ∧ t.zone < 1440

instance (t : Time) : Decidable t.valid := by
  unfold Time.valid; infer_instance

/-- The struct `dataPoint`: field `Time` (JSON member `timestamp`) and field
`ViewCounts` (JSON member `viewCounts`). -/
structure dataPoint where
  Time : Time
  ViewCounts : ViewCounts
  deriving DecidableEq, Repr

/-! ## encoding/json: the encoder

The bytes `json.NewEncoder(f)` writes for a `[]dataPoint` after
`SetIndent("", " ")`. -/

/-- The hexadecimal digit for a value below 16, in lower case. -/
def hexChar (n : Nat) : Char :=
  if n < 10 then Char.ofNat (48 + n) else Char.ofNat (87 + n)

/-- One character of a string inside a JSON string literal.  The quote and
the backslash get a backslash; newline, carriage return and tab their short
forms; the other control characters, and `<`, `>`, `&` (the encoder escapes
HTML by default), a `\u00XX`; U+2028 and U+2029 a `\u202X`. -/
def jsonEscape (c : Char) : List Char :=
  if c = '"' then ['\\', '"']
  else if c = '\\' then ['\\', '\\']
  else if c = '\n' then ['\\', 'n']
  else if c = '\r' then ['\\', 'r']
  else if c = '\t' then ['\\', 't']
  else if c.toNat < 32 ∨ c = '<' ∨ c = '>' ∨ c = '&' then
    ['\\', 'u', '0', '0', hexChar (c.toNat / 16), hexChar (c.toNat % 16)]
  else if c.toNat = 8232 ∨ c.toNat = 8233 then
    ['\\', 'u', '2', '0', '2', hexChar (c.toNat % 16)]
  else [c]

/-- The body of a JSON string literal, between its quotes. -/
def jsonEscapeAll : List Char → List Char
  | [] => []
  | c :: cs => jsonEscape c ++ jsonEscapeAll cs

/-- A JSON string literal. -/
def jsonString (s : List Char) : List Char :=
  '"' :: (jsonEscapeAll s ++ ['"'])

/-- The decimal digit for a value below 10. -/
def digitChar (d : Nat) : Char := Char.ofNat (48 + d)

/-- Decimal digits of `n` in front of `acc`, most significant first. -/
def decimalAux : Nat → Nat → List Char → List Char
  | 0, _, acc => acc
  | fuel + 1, n, acc =>
    if n < 10 then digitChar n :: acc
    else decimalAux fuel (n / 10) (digitChar (n % 10) :: acc)

/-- A `uint64` as the encoder prints it: decimal, no sign, no leading zero. -/
def decimal (n : Nat) : List Char := decimalAux (n + 1) n []

/-- Two decimal digits, zero padded. -/
def pad2 (n : Nat) : List Char := [digitChar (n / 10 % 10), digitChar (n % 10)]

/-- Four decimal digits, zero padded. -/
def pad4 (n : Nat) : List Char := pad2 (n / 100) ++ pad2 (n % 100)

/-- Drop the zeros at the end of a digit string. -/
def trimZeros : List Char → List Char
  | [] => []
  | c :: cs =>
    match trimZeros cs with
    | [] => if c = '0' then [] else [c]
    | r => c :: r

/-- Nine decimal digits, zero padded. -/
def pad9 (n : Nat) : List Char :=
  [digitChar (n / 100000000 % 10), digitChar (n / 10000000 % 10),
   digitChar (n / 1000000 % 10), digitChar (n / 100000 % 10),
   digitChar (n / 10000 % 10), digitChar (n / 1000 % 10),
   digitChar (n / 100 % 10), digitChar (n / 10 % 10), digitChar (n % 10)]

/-- The fraction of a second in layout `.999999999`: nothing when it is zero,
else a point and the nanoseconds without their trailing zeros. -/
def formatFraction (nano : Nat) : List Char :=
  if nano = 0 then [] else '.' :: trimZeros (pad9 nano)

/-- The zone in layout `Z07:00`: `Z` for offset zero, else sign, hours, minutes. -/
def formatZone (zone : Int) : List Char :=
  if zone = 0 then ['Z']
  else if 0 < zone then '+' :: (pad2 (zone.toNat / 60) ++ ':' :: pad2 (zone.toNat % 60))
  else '-' :: (pad2 ((-zone).toNat / 60) ++ ':' :: pad2 ((-zone).toNat % 60))

/-- Layout `time.RFC3339Nano`, `2006-01-02T15:04:05.999999999Z07:00`. -/
def formatRFC3339Nano (t : Time) : List Char :=
  pad4 t.year ++ '-' :: (pad2 t.month ++ '-' :: (pad2 t.day ++ 'T' :: (pad2 t.hour ++
    ':' :: (pad2 t.minute ++ ':' :: (pad2 t.second ++
      (formatFraction t.nano ++ formatZone t.zone))))))

/-- Method `Time.MarshalJSON`: the quoted RFC 3339 form, refused for a year
past 9999. -/
def marshalTime (t : Time) : Except String (List Char) :=
  if t.year ≤ 9999 then .ok ('"' :: (formatRFC3339Nano t ++ ['"']))
  else .error "Time.MarshalJSON: year outside of range [0,9999]"

/-- A line break of the indented output: newline, then one space per level. -/
def newline (depth : Nat) : List Char := '\n' :: List.replicate depth ' '

/-- One member of the counts object: the key, a colon and a space, the count. -/
def encodeMember (e : String × Nat) : List Char :=
  jsonString e.1.data ++ ':' :: ' ' :: decimal e.2

/-- The members after the first, each behind a comma and a line break. -/
def encodeMoreMembers (depth : Nat) : List (String × Nat) → List Char
  | [] => []
  | e :: es => ',' :: (newline depth ++ (encodeMember e ++ encodeMoreMembers depth es))

/-- A `map[string]uint64` whose opening brace stands at level `depth`: the
members in key order, one per line; the empty map stays on one line. -/
def encodeCounts (depth : Nat) : ViewCounts → List Char
  | [] => ['\x7b', '\x7d']
  | e :: es =>
    '\x7b' :: (newline (depth + 1) ++ (encodeMember e ++
      (encodeMoreMembers (depth + 1) es ++ (newline depth ++ ['\x7d']))))

/-- A `dataPoint` as an element of the top-level array: its two fields in
declaration order under their tags `timestamp` and `viewCounts`. -/
def encodePoint (p : dataPoint) : Except String (List Char) :=
  match marshalTime p.Time with
  | .error e => .error e
  | .ok ts =>
    .ok ('\x7b' :: (newline 2 ++ (jsonString "timestamp".data ++ ':' :: ' ' :: (ts ++
      ',' :: (newline 2 ++ (jsonString "viewCounts".data ++ ':' :: ' ' ::
        (encodeCounts 2 p.ViewCounts ++ (newline 1 ++ ['\x7d']))))))))

/-- The elements after the first, each behind a comma and a line break. -/
def encodeMorePoints : List dataPoint → Except String (List Char)
  | [] => .ok []
  | p :: ps =>
    match encodePoint p, encodeMorePoints ps with
    | .ok a, .ok b => .ok (',' :: (newline 1 ++ (a ++ b)))
    | .error e, _ => .error e
    | _, .error e => .error e

/-- What `enc.Encode(vcs)` writes: `null` for the nil slice, `[]` for an empty
one, else the elements one per line; then the newline `Encode` adds.  An
error, and nothing written, when a timestamp cannot be marshalled. -/
def jsonEncode : Slice dataPoint → Except String (List Char)
  | none => .ok ['n', 'u', 'l', 'l', '\n']
  | some [] => .ok ['[', ']', '\n']
  | some (p :: ps) =>
    match encodePoint p, encodeMorePoints ps with
    | .ok a, .ok b => .ok ('[' :: (newline 1 ++ (a ++ (b ++ (newline 0 ++ [']', '\n'])))))
    | .error e, _ => .error e
    | _, .error e => .error e

/-! ## encoding/json: the decoder

`json.NewDecoder(f).Decode(&dps)` reads the first JSON value of the stream and
stores it in a `[]dataPoint`.  The model is a scanner that cuts the bytes
into tokens and an automaton over the tokens that builds the slice and stops
at the end of the first value.  It covers the documents the program itself
writes, `null`, and any spacing between tokens; an element whose members are
not exactly `timestamp` then `viewCounts`, a `null` below the top level, a
surrogate escape, and a fraction of a second of more than nine digits are
outside it and are reported as decoding errors. -/

/-- The tokens of the documents in question. -/
inductive Token
  | lbrack | rbrack | lbrace | rbrace | colon | comma
  | null
  | str (s : List Char)
  | num (n : Nat)
  | bad
  deriving DecidableEq, Repr

/-- The value of a decimal digit. -/
def digitVal? (c : Char) : Option Nat :=
  if 48 ≤ c.toNat ∧ c.toNat ≤ 57 then some (c.toNat - 48) else none

/-- The value of a hexadecimal digit, either case. -/
def hexVal? (c : Char) : Option Nat :=
  if 48 ≤ c.toNat ∧ c.toNat ≤ 57 then some (c.toNat - 48)
  else if 97 ≤ c.toNat ∧ c.toNat ≤ 102 then some (c.toNat - 87)
  else if 65 ≤ c.toNat ∧ c.toNat ≤ 70 then some (c.toNat - 55)
  else none

/-- The character a one-letter escape stands for. -/
def unescape? (c : Char) : Option Char :=
  if c = '"' ∨ c = '\\' ∨ c = '/' then some c
  else if c = 'b' then some (Char.ofNat 8)
  else if c = 'f' then some (Char.ofNat 12)
  else if c = 'n' then some '\n'
  else if c = 'r' then some '\r'
  else if c = 't' then some '\t'
  else none

/-- Where the scanner stands: between tokens; inside the literal `null` with
`rest` still to come (an empty `rest`: the literal is complete and a blank or
the end of input must follow); inside a string literal; behind a backslash;
inside a `\u` escape with `left` digits to come; inside a number; behind a
leading zero; or stopped at a byte it cannot accept. -/
inductive LexMode
  | out
  | lit (rest : List Char)
  | str (acc : List Char)
  | esc (acc : List Char)
  | uni (acc : List Char) (left : Nat) (v : Nat)
  | num (n : Nat)
  | zero
  | dead
  deriving DecidableEq, Repr

/-- Scanner state: the mode and the tokens cut so far. -/
structure LexState where
  mode : LexMode
  toks : List Token
  deriving DecidableEq, Repr

/-- One byte read between tokens. -/
def lexOut (toks : List Token) (c : Char) : LexState :=
  if c = ' ' ∨ c = '\t' ∨ c = '\r' ∨ c = '\n' then ⟨.out, toks⟩
  else if c = '[' then ⟨.out, toks ++ [.lbrack]⟩
  else if c = ']' then ⟨.out, toks ++ [.rbrack]⟩
  else if c = '\x7b' then ⟨.out, toks ++ [.lbrace]⟩
  else if c = '\x7d' then ⟨.out, toks ++ [.rbrace]⟩
  else if c = ':' then ⟨.out, toks ++ [.colon]⟩
  else if c = ',' then ⟨.out, toks ++ [.comma]⟩
  else if c = '"' then ⟨.str [], toks⟩
  else if c = 'n' then ⟨.lit ['u', 'l', 'l'], toks⟩
  else if c = '0' then ⟨.zero, toks⟩
  else
    match digitVal? c with
    | some d => ⟨.num d, toks⟩
    | none => ⟨.dead, toks ++ [.bad]⟩

/-- One byte read by the scanner. -/
def lexStep (s : LexState) (c : Char) : LexState :=
  match s.mode with
  | .out => lexOut s.toks c
  | .lit [] =>
    if c = ' ' ∨ c = '\t' ∨ c = '\r' ∨ c = '\n' then ⟨.out, s.toks ++ [.null]⟩
    else ⟨.dead, s.toks ++ [.bad]⟩
  | .lit (e :: es) =>
    if c = e then ⟨.lit es, s.toks⟩ else ⟨.dead, s.toks ++ [.bad]⟩
  | .str acc =>
    if c = '"' then ⟨.out, s.toks ++ [.str acc]⟩
    else if c = '\\' then ⟨.esc acc, s.toks⟩
    else if c.toNat < 32 then ⟨.dead, s.toks ++ [.bad]⟩
    else ⟨.str (acc ++ [c]), s.toks⟩
  | .esc acc =>
    if c = 'u' then ⟨.uni acc 4 0, s.toks⟩
    else
      match unescape? c with
      | some d => ⟨.str (acc ++ [d]), s.toks⟩
      | none => ⟨.dead, s.toks ++ [.bad]⟩
  | .uni acc left v =>
    match hexVal? c with
    | none => ⟨.dead, s.toks ++ [.bad]⟩
    | some h =>
      if left ≤ 1 then
        (if 55296 ≤ v * 16 + h ∧ v * 16 + h ≤ 57343 then ⟨.dead, s.toks ++ [.bad]⟩
         else ⟨.str (acc ++ [Char.ofNat (v * 16 + h)]), s.toks⟩)
      else ⟨.uni acc (left - 1) (v * 16 + h), s.toks⟩
  | .num n =>
    match digitVal? c with
    | some d => ⟨.num (n * 10 + d), s.toks⟩
    | none => lexOut (s.toks ++ [.num n]) c
  | .zero =>
    match digitVal? c with
    | some _ => ⟨.dead, s.toks ++ [.bad]⟩
    | none => lexOut (s.toks ++ [.num 0]) c
  | .dead => s

/-- The tokens once the input has ended. -/
def lexEnd (s : LexState) : List Token :=
  match s.mode with
  | .out => s.toks
  | .dead => s.toks
  | .lit [] => s.toks ++ [.null]
  | .num n => s.toks ++ [.num n]
  | .zero => s.toks ++ [.num 0]
  | _ => s.toks ++ [.bad]

/-- The scanner: a byte stream cut into tokens, ending in `bad` at the first
byte that no token can hold. -/
def jsonLex (bytes : List Char) : List Token :=
  lexEnd (bytes.foldl lexStep ⟨.out, []⟩)

/-- Two decimal digits read as a number. -/
def digits2? (a b : Char) : Option Nat :=
  match digitVal? a, digitVal? b with
  | some x, some y => some (x * 10 + y)
  | _, _ => none

/-- The digits of a fraction of a second, at most `left` of them: the
nanoseconds so far scaled to nine places, and what follows the digits. -/
def readFraction : Nat → Nat → List Char → Option (Nat × List Char)
  | _, _, [] => none
  | left, acc, c :: cs =>
    match digitVal? c with
    | some d =>
      (match left with
       | 0 => none
       | l + 1 => readFraction l (acc * 10 + d) cs)
    | none => if left = 9 then none else some (acc * 10 ^ left, c :: cs)

/-- The zone of an RFC 3339 time: `Z`, or a sign, hours, a colon, minutes. -/
def parseZone : List Char → Option Int
  | [z] => if z = 'Z' then some 0 else none
  | [sg, h1, h2, c, m1, m2] =>
    match digits2? h1 h2, digits2? m1 m2 with
    | some h, some m =>
      if c = ':' ∧ h < 24 ∧ m < 60 then
        (if sg = '+' then some ((h * 60 + m : Nat) : Int)
         else if sg = '-' then some (-((h * 60 + m : Nat) : Int))
         else none)
      else none
    | _, _ => none
  | _ => none

/-- The fraction, when there is one, and the zone. -/
def parseFractionZone : List Char → Option (Nat × Int)
  | [] => none
  | c :: cs =>
    if c = '.' then
      match readFraction 9 0 cs with
      | some (nano, rest) => (parseZone rest).map (fun z => (nano, z))
      | none => none
    else (parseZone (c :: cs)).map (fun z => (0, z))

/-- Method `Time.UnmarshalJSON` on the contents of the string: an RFC 3339
time, which must be a real date and time of day. -/
def parseRFC3339 : List Char → Option Time
  | y1 :: y2 :: y3 :: y4 :: d1 :: mo1 :: mo2 :: d2 :: da1 :: da2 :: tt ::
      h1 :: h2 :: c1 :: mi1 :: mi2 :: c2 :: s1 :: s2 :: rest =>
    match digits2? y1 y2, digits2? y3 y4, digits2? mo1 mo2, digits2? da1 da2,
        digits2? h1 h2, digits2? mi1 mi2, digits2? s1 s2, parseFractionZone rest with
    | some yh, some yl, some mo, some da, some h, some mi, some sec, some (nano, z) =>
      let t : Time := ⟨yh * 100 + yl, mo, da, h, mi, sec, nano, z⟩
      if d1 = '-' ∧ d2 = '-' ∧ tt = 'T' ∧ c1 = ':' ∧ c2 = ':' ∧ t.valid then some t
      else none
    | _, _, _, _, _, _, _, _ => none
  | _ => none

/-- Where the decoder stands in the first value of the stream.  `acc` holds
the elements completed so far, `t` the timestamp and `m` the counts of the
element being read. -/
inductive ParseMode
  | start
  | elem (acc : List dataPoint) (first : Bool)
  | key1 (acc : List dataPoint)
  | colon1 (acc : List dataPoint)
  | stamp (acc : List dataPoint)
  | comma1 (acc : List dataPoint) (t : Time)
  | key2 (acc : List dataPoint) (t : Time)
  | colon2 (acc : List dataPoint) (t : Time)
  | counts (acc : List dataPoint) (t : Time)
  | member (acc : List dataPoint) (t : Time) (m : ViewCounts) (first : Bool)
  | colon3 (acc : List dataPoint) (t : Time) (m : ViewCounts) (k : List Char)
  | count (acc : List dataPoint) (t : Time) (m : ViewCounts) (k : List Char)
  | afterMember (acc : List dataPoint) (t : Time) (m : ViewCounts)
  | closeElem (acc : List dataPoint) (t : Time) (m : ViewCounts)
  | afterElem (acc : List dataPoint)
  | done (r : Slice dataPoint)
  | fail
  deriving DecidableEq, Repr

/-- One token read by the decoder.  A value once complete stays as it is:
what follows the first value in the stream is not looked at. -/
def parseStep : ParseMode → Token → ParseMode
  | .start, .null => .done none
  | .start, .lbrack => .elem [] true
  | .elem acc first, .rbrack => if first then .done (some acc) else .fail
  | .elem acc _, .lbrace => .key1 acc
  | .key1 acc, .str k => if k = "timestamp".data then .colon1 acc else .fail
  | .colon1 acc, .colon => .stamp acc
  | .stamp acc, .str ts =>
    (match parseRFC3339 ts with
     | some t => .comma1 acc t
     | none => .fail)
  | .comma1 acc t, .comma => .key2 acc t
  | .key2 acc t, .str k => if k = "viewCounts".data then .colon2 acc t else .fail
  | .colon2 acc t, .colon => .counts acc t
  | .counts acc t, .lbrace => .member acc t [] true
  | .member acc t m first, .rbrace => if first then .closeElem acc t m else .fail
  | .member acc t m _, .str k => .colon3 acc t m k
  | .colon3 acc t m k, .colon => .count acc t m k
  | .count acc t m k, .num v =>
    if v < 18446744073709551616 then .afterMember acc t (mapSet m (String.mk k) v)
    else .fail
  | .afterMember acc t m, .comma => .member acc t m false
  | .afterMember acc t m, .rbrace => .closeElem acc t m
  | .closeElem acc t m, .rbrace => .afterElem (acc ++ [⟨t, m⟩])
  | .afterElem acc, .comma => .elem acc false
  | .afterElem acc, .rbrack => .done (some acc)
  | .done r, _ => .done r
  | _, _ => .fail

/-- Decode the first value of a byte stream into a `[]dataPoint`: `null`
leaves the slice nil, an array gives a non-nil slice of its elements (an empty
array a non-nil slice of length zero); a stream that ends before any value
gives `EOF`. -/
def jsonDecode (bytes : List Char) : Except String (Slice dataPoint) :=
  match (jsonLex bytes).foldl parseStep .start with
  | .done r => .ok r
  | .start => .error "EOF"
  | .fail => .error "invalid JSON for []dataPoint"
  | _ => .error "unexpected EOF"

/-! ## The operating system, the log and the clock -/

/-- A Go `error`: `none` is nil, `some msg` an error with that message. -/
abbrev GoError := Option String

/-- Condition of one file name on disk: no such file; a file that is there but
cannot be opened (no permission, say); or a file with these bytes. -/
inductive FileState
  | absent
  | unreadable
  | present (bytes : List Char)
  deriving DecidableEq, Repr

/-- The disk: the condition of every file name. -/
abbrev Disk := String → FileState

/-- The disk with one file replaced. -/
def Disk.set (d : Disk) (name : String) (st : FileState) : Disk :=
  fun n => if n = name then st else d n

/-- Constant `historicalFilename`. -/
def historicalFilename : String := "scrobbler.historical.json"

/-- Go `os.Open(name)`: the bytes of the file, or the reason it cannot be read. -/
def osOpen (d : Disk) (name : String) : Except String (List Char) :=
  match d name with
  | .absent => .error ("open " ++ name ++ ": no such file or directory")
  | .unreadable => .error ("open " ++ name ++ ": permission denied")
  | .present bytes => .ok bytes

/-- What the operating system does to one attempt to write the state file:
nothing; `os.Create` fails and the file stays as it was; the write fails
after `n` bytes; or `Close` fails. -/
inductive WriteFault
  | none
  | create (e : String)
  | write (e : String) (n : Nat)
  | close (e : String)
  deriving DecidableEq, Repr

/-- Go `fmt.Sprintf` for the verbs `%s`, `%v` and `%d`, each operand given as
the text it prints as.  A verb with no operand left prints `%!v(MISSING)` with
its own letter.  No call of the program passes more operands than verbs. -/
def sprintfAux : List Char → List String → List Char
  | [], _ => []
  | c :: tail, args =>
    if c = '%' then
      match tail with
      | [] => "%!(NOVERB)".data
      | v :: rest =>
        if v = 's' ∨ v = 'v' ∨ v = 'd' then
          match args with
          | a :: more => a.data ++ sprintfAux rest more
          | [] => '%' :: '!' :: v :: ("(MISSING)".data ++ sprintfAux rest [])
        else c :: v :: sprintfAux rest args
    else c :: sprintfAux tail args

/-- Go `fmt.Sprintf(format, args...)`. -/
def sprintf (format : String) (args : List String) : String :=
  String.mk (sprintfAux format.data args)

/-- The entries of a map as `fmt` prints them, `key:value` with blanks between. -/
def showEntries : List (String × Nat) → List Char
  | [] => []
  | [e] => e.1.data ++ ':' :: decimal e.2
  | e :: es => e.1.data ++ ':' :: (decimal e.2 ++ ' ' :: showEntries es)

/-- The text of `log.Println(vcs)` for a map: `map[a:42 b:7]`. -/
def showCounts (m : ViewCounts) : String :=
  String.mk ("map[".data ++ showEntries m ++ [']'])

/-! ## The state file: `saveHistoricalData`, `loadHistoricalData` -/

/-- Function `saveHistoricalData(vcs)`: the error returned and the disk left
behind.  `os.Create` truncates the file; the encoder marshals the whole slice
before it writes; on an encoding error the file is closed and the error
returned; otherwise the result of `Close` is returned. -/
def saveHistoricalData (fault : WriteFault) (d : Disk) (vcs : Slice dataPoint) :
    GoError × Disk :=
  match fault with
  | .create e => (some e, d)
  | _ =>
    match jsonEncode vcs with
    | .error e => (some e, d.set historicalFilename (.present []))
    | .ok bytes =>
      match fault with
      | .write e n => (some e, d.set historicalFilename (.present (bytes.take n)))
      | .close e => (some e, d.set historicalFilename (.present bytes))
      | _ => (none, d.set historicalFilename (.present bytes))

/-- Result of `loadHistoricalData`: the slice, the error, and the records it
logged. -/
structure LoadResult where
  dps : Slice dataPoint
  err : GoError
  logged : List String

/-- Function `loadHistoricalData()`.  When `os.Open` fails, for whatever
reason, the failure is logged and `nil, nil` returned; when decoding fails,
`nil` and the error; else the decoded slice and a nil error. -/
def loadHistoricalData (d : Disk) : LoadResult :=
  match osOpen d historicalFilename with
  | .error e => ⟨none, none, [sprintf "failed to open %s: %v" [historicalFilename, e]]⟩
  | .ok bytes =>
    match jsonDecode bytes with
    | .error e => ⟨none, some e, []⟩
    | .ok dps => ⟨dps, none, []⟩

/-! ## The sampling cycle: `updateViewCount` -/

/-- One call of `GetViewCount()` on a source, as the cycle sees it: the two
results, and how long the call takes on the clock. -/
structure ViewCountSource where
  vc : Nat
  err : GoError
  took : Nat
  deriving DecidableEq, Repr

/-- What one cycle meets outside the program: the registry `srcs` in the
order `range` visits it this time, each source with what its call returns;
the wall clock read by `time.Now()` as a function of the running clock; and
the fault on writing the state file, if any. -/
structure Cycle where
  srcs : List (String × ViewCountSource)
  wall : Nat → Time
  fault : WriteFault

/-- The state the program runs on: the variable `viewCounts` of `main`, the
disk, the records logged so far, the running clock, and the names of the
sources whose `GetViewCount` has been called, in call order. -/
structure World where
  viewCounts : Slice dataPoint
  disk : Disk
  log : List String
  clock : Nat
  queried : List String

/-- State of the loop over the registry: the map `vcs` being filled, and the
log, clock and call record of the world. -/
structure LoopState where
  vcs : ViewCounts
  log : List String
  clock : Nat
  queried : List String
  deriving DecidableEq, Repr

/-- The loop `for n, src := range srcs` of `updateViewCount`.  Each source is
called; on an error `log.Printf("%s: %v", err)` runs, with the error as its
only operand, and the loop continues; else `vcs[n] = vc`. -/
def rangeSrcs : List (String × ViewCountSource) → LoopState → LoopState
  | [], st => st
  | (n, src) :: rest, st =>
    match src.err with
    | some e =>
      rangeSrcs rest
        { vcs := st.vcs
          log := st.log ++ [sprintf "%s: %v" [e]]
          clock := st.clock + src.took
          queried := st.queried ++ [n] }
    | none =>
      rangeSrcs rest
        { vcs := mapSet st.vcs n src.vc
          log := st.log
          clock := st.clock + src.took
          queried := st.queried ++ [n] }

/-- The closure `updateViewCount` of `main`: a fresh map is filled by the
loop, `dataPoint{time.Now(), vcs}` is appended to `viewCounts`, the whole of
`viewCounts` is handed to `saveHistoricalData`, a failure of which is logged,
and the map is logged. -/
def updateViewCount (c : Cycle) (w : World) : World :=
  let st := rangeSrcs c.srcs ⟨[], w.log, w.clock, w.queried⟩
  let viewCounts := goAppend w.viewCounts ⟨c.wall st.clock, st.vcs⟩
  let saved := saveHistoricalData c.fault w.disk viewCounts
  let log :=
    match saved.1 with
    | some e => st.log ++ [sprintf "failed to saveHistoricalData: %v" [e]]
    | none => st.log
  { viewCounts := viewCounts
    disk := saved.2
    log := log ++ [showCounts st.vcs]
    clock := st.clock
    queried := st.queried }

/-- The sample a cycle appends. -/
def cycleSample (c : Cycle) (w : World) : dataPoint :=
  let st := rangeSrcs c.srcs ⟨[], w.log, w.clock, w.queried⟩
  ⟨c.wall st.clock, st.vcs⟩

/-! ## Start of `main` and the ticker -/

/-- The process after the start of `main`: ended by `log.Fatalf` with this
message, or running on this world. -/
inductive Proc
  | exited (msg : String)
  | running (w : World)

/-- Function `main` from `loadHistoricalData()` up to the start of the ticker,
with the registry already built.  A load error is fatal; when the loaded
slice is nil (`viewCounts == nil`) one cycle runs at once. -/
def startup (first : Cycle) (d : Disk) (clock : Nat) : Proc :=
  let r := loadHistoricalData d
  match r.err with
  | some e => .exited (sprintf "loadHistoricalData: %v" [e])
  | none =>
    let w : World := ⟨r.dps, d, r.logged, clock, []⟩
    match r.dps with
    | none => .running (updateViewCount first w)
    | some _ => .running w

/-- The ticker goroutine: one cycle for each tick received, in turn. -/
def runTicks : List Cycle → World → World
  | [], w => w
  | c :: cs, w => runTicks cs (updateViewCount c w)

/-! ## `YouTubeSource.GetViewCount` -/

/-- The part `liveStreamingDetails` of a video resource. -/
structure VideoLiveStreamingDetails where
  ConcurrentViewers : Nat
  deriving DecidableEq, Repr

/-- A video resource of the YouTube client library.  The field
`LiveStreamingDetails` is a pointer, nil when the video carries no such part. -/
structure Video where
  LiveStreamingDetails : Option VideoLiveStreamingDetails
  deriving DecidableEq, Repr

/-- The response to `Videos.List`. -/
structure VideoListResponse where
  Items : List Video
  deriving DecidableEq, Repr

/-- How a Go call ends: it returns, or it panics. -/
inductive Outcome (α : Type)
  | returned (a : α)
  | panicked (msg : String)
  deriving DecidableEq, Repr

/-- Method `YouTubeSource.GetViewCount`, given what `call.Do()` returns.  An
error of the call is passed on; a response without exactly one item is an
error; else `vid.LiveStreamingDetails.ConcurrentViewers` is read, through the
pointer, with no check that the pointer is set. -/
def YouTubeSource.GetViewCount (response : Except String VideoListResponse) :
    Outcome (Nat × GoError) :=
  match response with
  | .error e => .returned (0, some e)
  | .ok response =>
    if response.Items.length ≠ 1 then
      .returned (0, some (sprintf "youtube returned %d videos"
        [String.mk (decimal response.Items.length)]))
    else
      match response.Items with
      | [] => .panicked "index out of range"
      | vid :: _ =>
        match vid.LiveStreamingDetails with
        | none => .panicked "invalid memory address or nil pointer dereference"
        | some details => .returned (details.ConcurrentViewers, none)

/-! ## Vocabulary of the statements -/

/-- The entries the loop stores: name and count of each source whose call
returns a nil error, in visiting order. -/
def succeeded : List (String × ViewCountSource) → List (String × Nat)
  | [] => []
  | (n, src) :: rest =>
    match src.err with
    | some _ => succeeded rest
    | none => (n, src.vc) :: succeeded rest

/-- The sources whose call returns an error. -/
def failed : List (String × ViewCountSource) → List (String × ViewCountSource)
  | [] => []
  | (n, src) :: rest =>
    match src.err with
    | some _ => (n, src) :: failed rest
    | none => failed rest

/-- The time all calls of a cycle take together. -/
def totalTook : List (String × ViewCountSource) → Nat
  | [] => 0
  | (_, src) :: rest => src.took + totalTook rest

/-- The error `saveHistoricalData` returns inside a cycle. -/
def saveErr (c : Cycle) (w : World) : GoError :=
  (saveHistoricalData c.fault w.disk (goAppend w.viewCounts (cycleSample c w))).1

/-- The samples a run of cycles appends, in order. -/
def samplesOf : List Cycle → World → List dataPoint
  | [], _ => []
  | c :: cs, w => cycleSample c w :: samplesOf cs (updateViewCount c w)

/-- A disk without any file. -/
def emptyDisk : Disk := fun _ => .absent

/-- A wall clock for the examples: a fixed day, the running clock as its
nanoseconds. -/
def exampleWall (clock : Nat) : Time := ⟨2017, 3, 4, 5, 6, 7, clock, 0⟩

/-- Registry of the second end-to-end scenario: `a` returns 42 after 2 units
of time, `b` an error after 3. -/
def exampleSrcs : List (String × ViewCountSource) :=
  [("a", ⟨42, none, 2⟩), ("b", ⟨0, some "http.Get: timeout", 3⟩)]

/-- A cycle over `exampleSrcs` with no fault on the disk. -/
def exampleCycle : Cycle := ⟨exampleSrcs, exampleWall, .none⟩

/-- The same cycle on a full disk: the write fails at once. -/
def exampleCycleDiskFull : Cycle := ⟨exampleSrcs, exampleWall, .write "no space left on device" 0⟩

/-- A world at the start of the process: nothing loaded, nothing on disk. -/
def exampleWorld : World := ⟨none, emptyDisk, [], 0, []⟩

/-- A disk whose only file is the state file, with these bytes. -/
def diskWith (bytes : List Char) : Disk :=
  emptyDisk.set historicalFilename (.present bytes)

/-- A disk on which the state file is there but cannot be opened. -/
def lockedDisk : Disk := emptyDisk.set historicalFilename .unreadable

/-- A state file as the program writes it, holding one sample. -/
def oneSampleFile : List Char :=
  "[\n \x7b\n  \"timestamp\": \"2017-03-04T05:06:07.000000005Z\",\n  \"viewCounts\": \x7b\n   \"a\": 42\n  \x7d\n \x7d\n]\n".data

/-- The sample `oneSampleFile` holds. -/
def oneSample : dataPoint := ⟨exampleWall 5, [("a", 42)]⟩

/-- The series a process holds, if it runs. -/
def Proc.series : Proc → Option (Slice dataPoint)
  | .exited _ => none
  | .running w => some w.viewCounts

/-- The sources a process has called, if it runs. -/
def Proc.queried : Proc → Option (List String)
  | .exited _ => none
  | .running w => some w.queried

/-- The mode of the scanner behind the digits of `v`. -/
def numMode (v : Nat) : LexMode := if v = 0 then .zero else .num v

/-- The number a string of decimal digits stands for, read after `acc`. -/
def digitsVal (acc : Nat) : List Char → Nat
  | [] => acc
  | c :: cs => digitsVal (acc * 10 + (digitVal? c).getD 0) cs

/-- Every character is a decimal digit. -/
def allDigits (l : List Char) : Prop := ∀ c ∈ l, (digitVal? c).isSome = true

/-- A character that stands for itself inside a string literal. -/
def plainChar (c : Char) : Prop := c ≠ '"' ∧ c ≠ '\\' ∧ 32 ≤ c.toNat

/-- The tokens of one member of the counts object. -/
def memberToks (e : String × Nat) : List Token :=
  [.str e.1.data, .colon, .num e.2]

/-- The tokens of the members after the first. -/
def moreMemberToks : List (String × Nat) → List Token
  | [] => []
  | e :: es => .comma :: (memberToks e ++ moreMemberToks es)

/-- The tokens of a counts object. -/
def countsToks : ViewCounts → List Token
  | [] => [.lbrace, .rbrace]
  | e :: es => .lbrace :: (memberToks e ++ (moreMemberToks es ++ [.rbrace]))

/-- The tokens of one element of the series. -/
def pointToks (p : dataPoint) : List Token :=
  .lbrace :: .str "timestamp".data :: .colon :: .str (formatRFC3339Nano p.Time) :: .comma ::
    .str "viewCounts".data :: .colon :: (countsToks p.ViewCounts ++ [.rbrace])

/-- The tokens of the elements after the first. -/
def morePointToks : List dataPoint → List Token
  | [] => []
  | p :: ps => .comma :: (pointToks p ++ morePointToks ps)

/-- The tokens of an encoded series. -/
def seriesToks : Slice dataPoint → List Token
  | none => [.null]
  | some [] => [.lbrack, .rbrack]
  | some (p :: ps) => .lbrack :: (pointToks p ++ (morePointToks ps ++ [.rbrack]))

/-- A sample as a run of the program holds it: the timestamp is a reading of
the clock in a year of at most four digits, the counts are a map value as
modelled (one entry per key, in key order), and every count is a `uint64`. -/
def pointOK (p : dataPoint) : Prop :=
  p.Time.valid ∧ p.Time.year ≤ 9999 ∧ keysSorted p.ViewCounts ∧
  ∀ e ∈ p.ViewCounts, e.2 < 18446744073709551616

/-- A series of such samples. -/
def seriesOK (s : Slice dataPoint) : Prop := ∀ p ∈ s.elems, pointOK p

/-- What a cycle meets is of the kinds the program's types allow: sources
under distinct names returning `uint64` counts, and a wall clock whose every
reading is a real time in a year of at most four digits. -/
def cycleOK (c : Cycle) : Prop :=
  (c.srcs.map Prod.fst).Nodup ∧ (∀ e ∈ c.srcs, e.2.vc < 18446744073709551616) ∧
  ∀ n, (c.wall n).valid ∧ (c.wall n).year ≤ 9999

/-- The bytes of one element, for a timestamp that can be marshalled. -/
def pointBytes (p : dataPoint) : List Char :=
  '\x7b' :: (newline 2 ++ (jsonString "timestamp".data ++ ':' :: ' ' ::
      (('"' :: (formatRFC3339Nano p.Time ++ ['"'])) ++
      ',' :: (newline 2 ++ (jsonString "viewCounts".data ++ ':' :: ' ' ::
        (encodeCounts 2 p.ViewCounts ++ (newline 1 ++ ['\x7d'])))))))

/-- The bytes of the elements after the first. -/
def morePointBytes : List dataPoint → List Char
  | [] => []
  | p :: ps => ',' :: (newline 1 ++ (pointBytes p ++ morePointBytes ps))

/-- The bytes of a series all of whose timestamps can be marshalled. -/
def seriesBytes : Slice dataPoint → List Char
  | none => ['n', 'u', 'l', 'l', '\n']
  | some [] => ['[', ']', '\n']
  | some (p :: ps) =>
    '[' :: (newline 1 ++ (pointBytes p ++ (morePointBytes ps ++ (newline 0 ++ [']', '\n']))))

instance (p : dataPoint) : Decidable (pointOK p) := by
  unfold pointOK keysSorted; infer_instance

instance (s : Slice dataPoint) : Decidable (seriesOK s) := by
  unfold seriesOK; infer_instance

/-- The decoder holds only samples of the kind `pointOK` describes. -/
def modeOK : ParseMode → Prop
  | .start => True
  | .elem acc _ => ∀ p ∈ acc, pointOK p
  | .key1 acc => ∀ p ∈ acc, pointOK p
  | .colon1 acc => ∀ p ∈ acc, pointOK p
  | .stamp acc => ∀ p ∈ acc, pointOK p
  | .comma1 acc t => (∀ p ∈ acc, pointOK p) ∧ pointOK ⟨t, []⟩
  | .key2 acc t => (∀ p ∈ acc, pointOK p) ∧ pointOK ⟨t, []⟩
  | .colon2 acc t => (∀ p ∈ acc, pointOK p) ∧ pointOK ⟨t, []⟩
  | .counts acc t => (∀ p ∈ acc, pointOK p) ∧ pointOK ⟨t, []⟩
  | .member acc t m _ => (∀ p ∈ acc, pointOK p) ∧ pointOK ⟨t, m⟩
  | .colon3 acc t m _ => (∀ p ∈ acc, pointOK p) ∧ pointOK ⟨t, m⟩
  | .count acc t m _ => (∀ p ∈ acc, pointOK p) ∧ pointOK ⟨t, m⟩
  | .afterMember acc t m => (∀ p ∈ acc, pointOK p) ∧ pointOK ⟨t, m⟩
  | .closeElem acc t m => (∀ p ∈ acc, pointOK p) ∧ pointOK ⟨t, m⟩
  | .afterElem acc => ∀ p ∈ acc, pointOK p
  | .done r => seriesOK r
  | .fail => True

/-- A series of two samples, the second with an empty counts map. -/
def exampleSeries : Slice dataPoint :=
  some [⟨exampleWall 5, [("a", 42), ("b", 18446744073709551615)]⟩, ⟨exampleWall 10, []⟩]

/-! # Theorems -/

/-! ## Maps -/

theorem mapSet_perm (m : ViewCounts) (k : String) (v : Nat)
    (hk : k ∉ m.map Prod.fst) : List.Perm (mapSet m k v) ((k, v) :: m) := by
  induction m with
  | nil => simp [mapSet]
  | cons e rest ih =>
    obtain ⟨k1, v1⟩ := e
    simp only [List.map_cons, List.mem_cons, not_or] at hk
    unfold mapSet
    rw [if_neg hk.1]
    split
    · exact List.Perm.refl _
    · exact ((ih hk.2).cons (k1, v1)).trans (List.Perm.swap _ _ _)

theorem mapGet_eq_some_iff (m : ViewCounts) (hnd : (m.map Prod.fst).Nodup)
    (k : String) (v : Nat) : mapGet m k = some v ↔ (k, v) ∈ m := by
  induction m with
  | nil => simp [mapGet]
  | cons e rest ih =>
    obtain ⟨k1, v1⟩ := e
    simp only [List.map_cons, List.nodup_cons] at hnd
    unfold mapGet
    by_cases h : k = k1
    · subst h
      simp only [if_true, Option.some.injEq, List.mem_cons, Prod.mk.injEq, true_and]
      constructor
      · intro h; exact Or.inl h.symm
      · rintro (h | h)
        · exact h.symm
        · exact absurd (List.mem_map_of_mem Prod.fst h) hnd.1
    · rw [if_neg h, ih hnd.2]
      simp [h]

theorem mapGet_eq_none_of_not_mem (m : ViewCounts) (k : String)
    (hk : k ∉ m.map Prod.fst) : mapGet m k = none := by
  induction m with
  | nil => rfl
  | cons e rest ih =>
    obtain ⟨k1, v1⟩ := e
    simp only [List.map_cons, List.mem_cons, not_or] at hk
    unfold mapGet
    rw [if_neg hk.1]
    exact ih hk.2

/-! ## The loop over the registry -/

theorem succeeded_keys_sublist (srcs : List (String × ViewCountSource)) :
    List.Sublist ((succeeded srcs).map Prod.fst) (srcs.map Prod.fst) := by
  induction srcs with
  | nil => simp [succeeded]
  | cons e rest ih =>
    obtain ⟨n1, src⟩ := e
    unfold succeeded
    cases he : src.err with
    | some e => exact ih.trans (List.sublist_cons_self _ _)
    | none => exact ih.cons₂ _

theorem mem_succeeded_iff (srcs : List (String × ViewCountSource)) (n : String) (v : Nat) :
    (n, v) ∈ succeeded srcs ↔ ∃ src, (n, src) ∈ srcs ∧ src.err = none ∧ src.vc = v := by
  induction srcs with
  | nil => simp [succeeded]
  | cons e rest ih =>
    obtain ⟨n1, src1⟩ := e
    unfold succeeded
    cases he : src1.err with
    | some e =>
      simp only [ih, List.mem_cons, Prod.mk.injEq]
      constructor
      · rintro ⟨src, hm, h1, h2⟩; exact ⟨src, Or.inr hm, h1, h2⟩
      · rintro ⟨src, hm | hm, h1, h2⟩
        · obtain ⟨-, rfl⟩ := hm; rw [he] at h1; cases h1
        · exact ⟨src, hm, h1, h2⟩
    | none =>
      simp only [ih, List.mem_cons, Prod.mk.injEq]
      constructor
      · rintro (⟨rfl, rfl⟩ | ⟨src, hm, h1, h2⟩)
        · exact ⟨src1, Or.inl ⟨rfl, rfl⟩, he, rfl⟩
        · exact ⟨src, Or.inr hm, h1, h2⟩
      · rintro ⟨src, hm | hm, h1, h2⟩
        · obtain ⟨rfl, rfl⟩ := hm; exact Or.inl ⟨rfl, h2.symm⟩
        · exact Or.inr ⟨src, hm, h1, h2⟩

theorem succeeded_length (srcs : List (String × ViewCountSource)) :
    (succeeded srcs).length + (failed srcs).length = srcs.length := by
  induction srcs with
  | nil => rfl
  | cons e rest ih =>
    obtain ⟨n1, src⟩ := e
    unfold succeeded failed
    cases he : src.err <;> simp <;> omega

theorem mem_failed_iff (srcs : List (String × ViewCountSource)) (e : String × ViewCountSource) :
    e ∈ failed srcs ↔ e ∈ srcs ∧ e.2.err ≠ none := by
  induction srcs with
  | nil => simp [failed]
  | cons e1 rest ih =>
    obtain ⟨n1, src1⟩ := e1
    unfold failed
    cases he : src1.err with
    | some x =>
      simp only [List.mem_cons, ih]
      constructor
      · rintro (rfl | h)
        · exact ⟨Or.inl rfl, by simp [he]⟩
        · exact ⟨Or.inr h.1, h.2⟩
      · rintro ⟨rfl | h, h2⟩
        · exact Or.inl rfl
        · exact Or.inr ⟨h, h2⟩
    | none =>
      simp only [List.mem_cons, ih]
      constructor
      · rintro h; exact ⟨Or.inr h.1, h.2⟩
      · rintro ⟨rfl | h, h2⟩
        · exact absurd he h2
        · exact ⟨h, h2⟩

theorem rangeSrcs_vcs (srcs : List (String × ViewCountSource)) (st : LoopState)
    (hnd : (srcs.map Prod.fst).Nodup)
    (hdis : ∀ n ∈ srcs.map Prod.fst, n ∉ st.vcs.map Prod.fst) :
    List.Perm (rangeSrcs srcs st).vcs (st.vcs ++ succeeded srcs) := by
  induction srcs generalizing st with
  | nil => simp [rangeSrcs, succeeded]
  | cons e rest ih =>
    obtain ⟨n, src⟩ := e
    simp only [List.map_cons, List.nodup_cons] at hnd
    unfold rangeSrcs succeeded
    cases he : src.err with
    | some e =>
      simp only
      refine ih _ hnd.2 ?_
      intro k hk
      exact hdis k (by simp [hk])
    | none =>
      simp only
      have hn : n ∉ st.vcs.map Prod.fst := hdis n (by simp)
      have hp := mapSet_perm st.vcs n src.vc hn
      refine (ih _ hnd.2 ?_).trans ?_
      · intro k hk
        simp only
        intro hmem
        have := (hp.map Prod.fst).subset hmem
        simp only [List.map_cons, List.mem_cons] at this
        rcases this with h | h
        · subst h; exact hnd.1 hk
        · exact hdis k (by simp [hk]) h
      · simp only
        have hm : List.Perm (st.vcs ++ (n, src.vc) :: succeeded rest)
            ((n, src.vc) :: (st.vcs ++ succeeded rest)) := List.perm_middle
        exact (hp.append_right _).trans (by simpa using hm.symm)

theorem rangeSrcs_queried (srcs : List (String × ViewCountSource)) (st : LoopState) :
    (rangeSrcs srcs st).queried = st.queried ++ srcs.map Prod.fst := by
  induction srcs generalizing st with
  | nil => simp [rangeSrcs]
  | cons e rest ih =>
    obtain ⟨n, src⟩ := e
    unfold rangeSrcs
    cases he : src.err <;> simp [ih]

theorem rangeSrcs_clock (srcs : List (String × ViewCountSource)) (st : LoopState) :
    (rangeSrcs srcs st).clock = st.clock + totalTook srcs := by
  induction srcs generalizing st with
  | nil => simp [rangeSrcs, totalTook]
  | cons e rest ih =>
    obtain ⟨n, src⟩ := e
    unfold rangeSrcs totalTook
    cases he : src.err <;> simp [ih] <;> omega

theorem cycleSample_counts (c : Cycle) (w : World) (hnd : (c.srcs.map Prod.fst).Nodup) :
    List.Perm (cycleSample c w).ViewCounts (succeeded c.srcs) := by
  have := rangeSrcs_vcs c.srcs ⟨[], w.log, w.clock, w.queried⟩ hnd (by simp)
  simpa [cycleSample] using this

theorem updateViewCount_viewCounts (c : Cycle) (w : World) :
    (updateViewCount c w).viewCounts = some (w.viewCounts.elems ++ [cycleSample c w]) := rfl

/-! ## C1: what a cycle puts into the sample -/

/-- C1: over a registry of distinctly named sources, one cycle calls
`GetViewCount` on every source, in visiting order, whatever the calls return;
the sample it appends holds, up to order, exactly the pairs of name and
returned count of the sources that returned no error: looking up a name gives
a count exactly when a source of that name succeeded with that count, a
failed source has no entry, and entries plus failures make up the registry. -/
theorem updateViewCount_counts (c : Cycle) (w : World)
    (hnd : (c.srcs.map Prod.fst).Nodup) :
    (updateViewCount c w).queried = w.queried ++ c.srcs.map Prod.fst ∧
    (updateViewCount c w).viewCounts = some (w.viewCounts.elems ++ [cycleSample c w]) ∧
    List.Perm (cycleSample c w).ViewCounts (succeeded c.srcs) ∧
    (∀ n v, mapGet (cycleSample c w).ViewCounts n = some v ↔
      ∃ src, (n, src) ∈ c.srcs ∧ src.err = none ∧ src.vc = v) ∧
    (∀ n src, (n, src) ∈ c.srcs → src.err ≠ none →
      mapGet (cycleSample c w).ViewCounts n = none) ∧
    (cycleSample c w).ViewCounts.length + (failed c.srcs).length = c.srcs.length := by
  have hp := cycleSample_counts c w hnd
  have hsub := succeeded_keys_sublist c.srcs
  have hnd2 : ((cycleSample c w).ViewCounts.map Prod.fst).Nodup :=
    ((hp.map Prod.fst).nodup_iff).mpr (hnd.sublist hsub)
  refine ⟨?_, rfl, hp, ?_, ?_, ?_⟩
  · simp [updateViewCount, rangeSrcs_queried]
  · intro n v
    rw [mapGet_eq_some_iff _ hnd2, hp.mem_iff, mem_succeeded_iff]
  · intro n src hm herr
    apply mapGet_eq_none_of_not_mem
    intro hmem
    have hmem2 : n ∈ (succeeded c.srcs).map Prod.fst := (hp.map Prod.fst).subset hmem
    obtain ⟨⟨n2, v⟩, hv, rfl⟩ := List.mem_map.mp hmem2
    obtain ⟨src2, hm2, he2, -⟩ := (mem_succeeded_iff c.srcs n2 v).mp hv
    have : src = src2 := by
      by_contra hne
      have hinj := List.inj_on_of_nodup_map hnd hm hm2 rfl
      exact hne (by injection hinj)
    subst this
    exact herr he2
  · rw [hp.length_eq]; exact succeeded_length c.srcs

/-- C1, second end-to-end scenario: with `a` returning 42 and `b` an error the
sample's counts are `{"a": 42}`. -/
theorem updateViewCount_counts_witness :
    (exampleCycle.srcs.map Prod.fst).Nodup ∧
    (cycleSample exampleCycle exampleWorld).ViewCounts = [("a", 42)] ∧
    (updateViewCount exampleCycle exampleWorld).queried = ["a", "b"] ∧
    (cycleSample exampleCycle exampleWorld).ViewCounts.length
      + (failed exampleCycle.srcs).length = exampleCycle.srcs.length :=
  ⟨by decide, by decide,
   (updateViewCount_counts exampleCycle exampleWorld (by decide)).1,
   (updateViewCount_counts exampleCycle exampleWorld (by decide)).2.2.2.2.2⟩

theorem runTicks_viewCounts (cs : List Cycle) (w : World) :
    (runTicks cs w).viewCounts.elems = w.viewCounts.elems ++ samplesOf cs w := by
  induction cs generalizing w with
  | nil => simp [runTicks, samplesOf]
  | cons c cs ih =>
    rw [runTicks, ih, samplesOf, updateViewCount_viewCounts]
    simp [Slice.elems]

theorem samplesOf_length (cs : List Cycle) (w : World) :
    (samplesOf cs w).length = cs.length := by
  induction cs generalizing w with
  | nil => rfl
  | cons c cs ih => simp [samplesOf, ih]

/-! ## C2: the series only grows, by one sample a cycle -/

/-- C2: for every series in memory, every registry and clock, and every fault
the write of the state file may hit (none included), the series after one
cycle is the old series followed by exactly one new sample: one longer, every
earlier element where it was.  Over any run of cycles the old series stays a
prefix and the length grows by the number of cycles. -/
theorem updateViewCount_appends (srcs : List (String × ViewCountSource))
    (wall : Nat → Time) (fault : WriteFault) (w : World) :
    (updateViewCount ⟨srcs, wall, fault⟩ w).viewCounts
      = some (w.viewCounts.elems ++ [cycleSample ⟨srcs, wall, fault⟩ w]) ∧
    goLen (updateViewCount ⟨srcs, wall, fault⟩ w).viewCounts = goLen w.viewCounts + 1 ∧
    (∀ i, i < goLen w.viewCounts →
      (updateViewCount ⟨srcs, wall, fault⟩ w).viewCounts.elems[i]? = w.viewCounts.elems[i]?) ∧
    (∀ cs : List Cycle,
      List.IsPrefix w.viewCounts.elems (runTicks cs w).viewCounts.elems ∧
      goLen (runTicks cs w).viewCounts = goLen w.viewCounts + cs.length) := by
  refine ⟨rfl, ?_, ?_, ?_⟩
  · simp [goLen, updateViewCount_viewCounts, Slice.elems]
  · intro i hi
    simp only [updateViewCount_viewCounts, Slice.elems]
    exact List.getElem?_append_left hi
  · intro cs
    refine ⟨⟨samplesOf cs w, (runTicks_viewCounts cs w).symm⟩, ?_⟩
    simp [goLen, runTicks_viewCounts, samplesOf_length]

/-! ## C3: every save writes the whole series -/

theorem saveHistoricalData_ok (fault : WriteFault) (d : Disk) (vcs : Slice dataPoint)
    (h : (saveHistoricalData fault d vcs).1 = none) :
    ∃ bytes, jsonEncode vcs = .ok bytes ∧
      (saveHistoricalData fault d vcs).2 historicalFilename = .present bytes := by
  unfold saveHistoricalData at h ⊢
  cases fault with
  | create e => simp at h
  | none =>
    cases hj : jsonEncode vcs with
    | error e => simp [hj] at h
    | ok bytes => exact ⟨bytes, rfl, by simp [Disk.set]⟩
  | write e n =>
    cases hj : jsonEncode vcs with
    | error e => simp [hj] at h
    | ok bytes => simp [hj] at h
  | close e =>
    cases hj : jsonEncode vcs with
    | error e => simp [hj] at h
    | ok bytes => simp [hj] at h

/-- C3: a cycle hands `saveHistoricalData` the whole series in memory, the
samples of all earlier cycles and its own.  So after any run of earlier
cycles, whatever happened to their saves, a cycle whose save returns no error
leaves in the state file the encoding of the whole series: the samples held
at the start, then one per cycle, in order. -/
theorem updateViewCount_saves_all (cs : List Cycle) (c : Cycle) (w : World)
    (h : saveErr c (runTicks cs w) = none) :
    (updateViewCount c (runTicks cs w)).disk
      = (saveHistoricalData c.fault (runTicks cs w).disk
          (updateViewCount c (runTicks cs w)).viewCounts).2 ∧
    (updateViewCount c (runTicks cs w)).viewCounts
      = some (w.viewCounts.elems ++ samplesOf cs w ++ [cycleSample c (runTicks cs w)]) ∧
    ∃ bytes,
      jsonEncode (some (w.viewCounts.elems ++ samplesOf cs w ++ [cycleSample c (runTicks cs w)]))
        = .ok bytes ∧
      (updateViewCount c (runTicks cs w)).disk historicalFilename = .present bytes := by
  have hv : (updateViewCount c (runTicks cs w)).viewCounts
      = some (w.viewCounts.elems ++ samplesOf cs w ++ [cycleSample c (runTicks cs w)]) := by
    rw [updateViewCount_viewCounts, runTicks_viewCounts]
  refine ⟨rfl, hv, ?_⟩
  obtain ⟨bytes, hb, hd⟩ := saveHistoricalData_ok _ _ _ h
  refine ⟨bytes, ?_, hd⟩
  rw [← hv]
  exact hb

/-- C3, fourth end-to-end scenario: the first cycle meets a full disk and its
save fails, the second saves; the state file then holds both samples. -/
theorem updateViewCount_saves_all_witness :
    saveErr exampleCycleDiskFull exampleWorld = some "no space left on device" ∧
    saveErr exampleCycle (runTicks [exampleCycleDiskFull] exampleWorld) = none ∧
    (∃ bytes,
      jsonEncode (some (exampleWorld.viewCounts.elems
          ++ samplesOf [exampleCycleDiskFull] exampleWorld
          ++ [cycleSample exampleCycle (runTicks [exampleCycleDiskFull] exampleWorld)]))
        = .ok bytes ∧
      (updateViewCount exampleCycle (runTicks [exampleCycleDiskFull] exampleWorld)).disk
        historicalFilename = .present bytes) ∧
    samplesOf [exampleCycleDiskFull, exampleCycle] exampleWorld
      = [⟨exampleWall 5, [("a", 42)]⟩, ⟨exampleWall 10, [("a", 42)]⟩] :=
  ⟨by rfl, by rfl,
   (updateViewCount_saves_all [exampleCycleDiskFull] exampleCycle exampleWorld (by rfl)).2.2,
   by rfl⟩

/-! ## C9: when the timestamp is taken -/

/-- C9, as stated, fails: with sources that take 2 and 3 units of time and a
clock at 0 on entry, the sample is stamped with the reading at 5, not the one
at 0. -/
theorem timestamp_not_at_cycle_start :
    exampleWorld.clock = 0 ∧
    (updateViewCount exampleCycle exampleWorld).viewCounts
      = some [⟨exampleCycle.wall 5, [("a", 42)]⟩] ∧
    (cycleSample exampleCycle exampleWorld).Time ≠ exampleCycle.wall exampleWorld.clock := by
  refine ⟨rfl, rfl, ?_⟩
  decide

/-- C9, amended: the timestamp of the sample is the one reading of the clock
taken after the loop, when every source's call has returned: the wall clock
at the time of entry plus the time the calls took. -/
theorem updateViewCount_timestamp (c : Cycle) (w : World) :
    (updateViewCount c w).viewCounts = some (w.viewCounts.elems ++ [cycleSample c w]) ∧
    (cycleSample c w).Time = c.wall (w.clock + totalTook c.srcs) ∧
    (updateViewCount c w).clock = w.clock + totalTook c.srcs := by
  refine ⟨rfl, ?_, ?_⟩
  · simp [cycleSample, rangeSrcs_clock]
  · simp [updateViewCount, rangeSrcs_clock]

/-! ## C10: what is logged for a failed source -/

/-- C10 fails on the code: `log.Printf("%s: %v", err)` has two verbs and one
operand, so the record of a failed source is the error's text followed by
`: %!v(MISSING)`; the source's name is not in it, and is not even looked at:
the records are the same under any other name.  The rest holds: one record
for the failure, a record with its cause for a failed save, and the cycle
runs to its end, logging the counts. -/
theorem failed_source_record_lacks_name :
    (updateViewCount exampleCycle exampleWorld).log
      = ["http.Get: timeout: %!v(MISSING)", "map[a:42]"] ∧
    ¬ List.IsInfix "b".data "http.Get: timeout: %!v(MISSING)".data ∧
    (∀ (n n2 : String) (src : ViewCountSource) (st : LoopState),
      (rangeSrcs [(n, src)] st).log = (rangeSrcs [(n2, src)] st).log) ∧
    (∀ (n e : String) (vc took : Nat) (st : LoopState),
      (rangeSrcs [(n, ⟨vc, some e, took⟩)] st).log = st.log ++ [e ++ ": %!v(MISSING)"]) ∧
    (updateViewCount exampleCycleDiskFull exampleWorld).log
      = ["http.Get: timeout: %!v(MISSING)",
         "failed to saveHistoricalData: no space left on device", "map[a:42]"] := by
  refine ⟨by rfl, by decide, ?_, ?_, by rfl⟩
  · intro n n2 src st
    unfold rangeSrcs
    cases src.err <;> rfl
  · intro n e vc took st
    simp only [rangeSrcs, sprintf, sprintfAux]
    congr 1

/-! ## C7: `YouTubeSource.GetViewCount` -/

/-- C7 fails on the code: for a response of one video that carries no
live-streaming details the method panics on the nil pointer, where the claim
has it return an error.  Everywhere else it does as claimed: an error of the
call is passed on with count 0, a response without exactly one item gives an
error with count 0, and one item with its details gives the count and a nil
error. -/
theorem GetViewCount_panics_without_details :
    YouTubeSource.GetViewCount (.ok ⟨[⟨none⟩]⟩)
      = .panicked "invalid memory address or nil pointer dereference" ∧
    (∀ e, YouTubeSource.GetViewCount (.error e) = .returned (0, some e)) ∧
    (∀ items : List Video, items.length ≠ 1 →
      ∃ msg, YouTubeSource.GetViewCount (.ok ⟨items⟩) = .returned (0, some msg)) ∧
    (∀ n, YouTubeSource.GetViewCount (.ok ⟨[⟨some ⟨n⟩⟩]⟩) = .returned (n, none)) := by
  refine ⟨rfl, fun _ => rfl, ?_, fun _ => rfl⟩
  intro items h
  exact ⟨sprintf "youtube returned %d videos" [String.mk (decimal items.length)],
    by simp [YouTubeSource.GetViewCount, h]⟩

/-! ## C4: `loadHistoricalData` -/

/-- C4, as stated, fails: a state file that exists and cannot be opened gives
the nil series and a nil error, not an error. -/
theorem loadHistoricalData_unreadable_no_error :
    lockedDisk historicalFilename = .unreadable ∧
    (loadHistoricalData lockedDisk).err = none ∧
    (loadHistoricalData lockedDisk).dps = none := by
  refine ⟨by rfl, by rfl, by rfl⟩

/-- C4, amended: whenever the state file cannot be opened, be it absent or
there and unreadable, `loadHistoricalData` returns the nil series and no
error; it returns an error exactly when the file opens and its bytes cannot be
decoded, and then the error is the decoder's; in every other case it returns
the decoded series and no error. -/
theorem loadHistoricalData_cases (d : Disk) :
    (match d historicalFilename with
     | .absent => (loadHistoricalData d).dps = none ∧ (loadHistoricalData d).err = none
     | .unreadable => (loadHistoricalData d).dps = none ∧ (loadHistoricalData d).err = none
     | .present bytes =>
       match jsonDecode bytes with
       | .error e => (loadHistoricalData d).dps = none ∧ (loadHistoricalData d).err = some e
       | .ok dps => (loadHistoricalData d).dps = dps ∧ (loadHistoricalData d).err = none) ∧
    ((loadHistoricalData d).err ≠ none ↔
      ∃ bytes e, d historicalFilename = .present bytes ∧ jsonDecode bytes = .error e) := by
  unfold loadHistoricalData osOpen
  cases hd : d historicalFilename with
  | absent => simp
  | unreadable => simp
  | present bytes =>
    cases hj : jsonDecode bytes with
    | error e => simp [hj]
    | ok dps => simp [hj]

/-! ## C5: the cycle at the start of the process -/

set_option maxRecDepth 100000

/-- C5, as stated, fails: a state file holding the empty series `[]` loads as
a series of zero samples, and no cycle runs at the start: the process runs on
with the series still empty and no source called.  A state file of zero bytes
does not give a series of one element either: decoding fails with `EOF` and
the process ends. -/
theorem startup_empty_series_no_cycle :
    (loadHistoricalData (diskWith "[]".data)).err = none ∧
    goLen (loadHistoricalData (diskWith "[]".data)).dps = 0 ∧
    (startup exampleCycle (diskWith "[]".data) 0).series = some (some []) ∧
    (startup exampleCycle (diskWith "[]".data) 0).queried = some [] ∧
    (startup exampleCycle (diskWith []) 0).series = none := by
  refine ⟨by rfl, by rfl, by rfl, by rfl, by rfl⟩

/-- C5, amended: at the start of the process one cycle runs at once exactly
when `loadHistoricalData` returned the nil series and no error, which it does
when the state file cannot be opened or holds `null`.  When the file decodes
to an array, empty or not, no cycle runs and the series stays as loaded until
the first tick; when it cannot be decoded the process ends.  So with no state
file the series has one element after the start; with a state file of one
sample no source is called at the start, the series has that one element, and
the first tick makes it two; with a state file holding `[]` the series is
empty until the first tick. -/
theorem startup_cycle_iff_nil (first : Cycle) (d : Disk) (clock : Nat) :
    (∀ e, (loadHistoricalData d).err = some e →
      (startup first d clock).series = none) ∧
    ((loadHistoricalData d).err = none → (loadHistoricalData d).dps = none →
      (startup first d clock).series
        = some (some [cycleSample first ⟨none, d, (loadHistoricalData d).logged, clock, []⟩]) ∧
      (startup first d clock).queried = some (first.srcs.map Prod.fst)) ∧
    (∀ l, (loadHistoricalData d).err = none → (loadHistoricalData d).dps = some l →
      (startup first d clock).series = some (some l) ∧
      (startup first d clock).queried = some []) ∧
    ((d historicalFilename = .absent ∨ d historicalFilename = .unreadable) →
      ∃ w, startup first d clock = .running w ∧ goLen w.viewCounts = 1) ∧
    (∀ bytes e, d historicalFilename = .present bytes → jsonDecode bytes = .error e →
      ∃ msg, startup first d clock = .exited msg) ∧
    (∀ bytes l, d historicalFilename = .present bytes → jsonDecode bytes = .ok (some l) →
      ∃ w, startup first d clock = .running w ∧ w.viewCounts = some l ∧ w.queried = [] ∧
        ∀ c, goLen (runTicks [c] w).viewCounts = l.length + 1) ∧
    jsonDecode oneSampleFile = .ok (some [oneSample]) ∧
    jsonDecode "[]".data = .ok (some []) ∧
    jsonDecode "null".data = .ok none ∧
    jsonDecode [] = .error "EOF" := by
  refine ⟨?_, ?_, ?_, ?_, ?_, ?_, by rfl, by rfl, by rfl, by rfl⟩
  · intro e he
    simp [startup, he, Proc.series]
  · intro he hd
    constructor
    · simp only [startup, he, hd, Proc.series, updateViewCount_viewCounts, Slice.elems,
        List.nil_append]
    · simp [startup, he, hd, Proc.queried, updateViewCount, rangeSrcs_queried]
  · intro l he hd
    simp [startup, he, hd, Proc.series, Proc.queried]
  · intro h
    have hl : (loadHistoricalData d).err = none ∧ (loadHistoricalData d).dps = none := by
      unfold loadHistoricalData osOpen
      rcases h with h | h <;> simp [h]
    refine ⟨updateViewCount first ⟨none, d, (loadHistoricalData d).logged, clock, []⟩, ?_, ?_⟩
    · simp [startup, hl.1, hl.2]
    · simp [goLen, updateViewCount_viewCounts, Slice.elems]
  · intro bytes e hb hj
    have hl : (loadHistoricalData d).err = some e := by
      unfold loadHistoricalData osOpen
      simp [hb, hj]
    exact ⟨sprintf "loadHistoricalData: %v" [e], by simp [startup, hl]⟩
  · intro bytes l hb hj
    have hl : (loadHistoricalData d).err = none ∧ (loadHistoricalData d).dps = some l := by
      unfold loadHistoricalData osOpen
      simp [hb, hj]
    refine ⟨⟨some l, d, (loadHistoricalData d).logged, clock, []⟩, ?_, rfl, rfl, ?_⟩
    · simp [startup, hl.1, hl.2]
    · intro c
      simp [runTicks, goLen, updateViewCount_viewCounts, Slice.elems]

/-! ## Key order -/

theorem char_toNat_inj (a b : Char) (h : a.toNat = b.toNat) : a = b := by
  rw [← Char.ofNat_toNat a, ← Char.ofNat_toNat b, h]

theorem ltChars_irrefl (a : List Char) : ltChars a a = false := by
  induction a with
  | nil => rfl
  | cons c cs ih => simp [ltChars, ih]

theorem ltChars_asymm (a b : List Char) (h : ltChars a b = true) : ltChars b a = false := by
  induction a generalizing b with
  | nil => cases b <;> simp_all [ltChars]
  | cons c cs ih =>
    cases b with
    | nil => simp [ltChars] at h
    | cons d ds =>
      unfold ltChars at h ⊢
      by_cases h1 : c.toNat < d.toNat
      · have : ¬ d.toNat < c.toNat := by omega
        simp [h1, this]
      · by_cases h2 : d.toNat < c.toNat
        · simp [h1, h2] at h
        · simp only [h1, h2, if_false] at h ⊢
          exact ih ds h

theorem ltChars_trans (a b c : List Char) (h1 : ltChars a b = true) (h2 : ltChars b c = true) :
    ltChars a c = true := by
  induction a generalizing b c with
  | nil =>
    cases b with
    | nil => simp [ltChars] at h1
    | cons y ys =>
      cases c with
      | nil => simp [ltChars] at h2
      | cons z zs => rfl
  | cons x xs ih =>
    cases b with
    | nil => simp [ltChars] at h1
    | cons y ys =>
      cases c with
      | nil => simp [ltChars] at h2
      | cons z zs =>
        unfold ltChars at h1 h2 ⊢
        by_cases e1 : x.toNat < y.toNat
        · by_cases e2 : y.toNat < z.toNat
          · have : x.toNat < z.toNat := by omega
            simp [this]
          · by_cases e3 : z.toNat < y.toNat
            · simp [e2, e3] at h2
            · have : x.toNat < z.toNat := by omega
              simp [this]
        · by_cases e1b : y.toNat < x.toNat
          · simp [e1, e1b] at h1
          · simp only [e1, e1b, if_false] at h1
            by_cases e2 : y.toNat < z.toNat
            · have : x.toNat < z.toNat := by omega
              simp [this]
            · by_cases e3 : z.toNat < y.toNat
              · simp [e2, e3] at h2
              · simp only [e2, e3, if_false] at h2
                have g1 : ¬ x.toNat < z.toNat := by omega
                have g2 : ¬ z.toNat < x.toNat := by omega
                simp only [g1, g2, if_false]
                exact ih ys zs h1 h2

theorem ltChars_total (a b : List Char) (h1 : ltChars a b = false) (h2 : a ≠ b) :
    ltChars b a = true := by
  induction a generalizing b with
  | nil =>
    cases b with
    | nil => exact absurd rfl h2
    | cons y ys => simp [ltChars] at h1
  | cons x xs ih =>
    cases b with
    | nil => rfl
    | cons y ys =>
      unfold ltChars at h1 ⊢
      by_cases e1 : x.toNat < y.toNat
      · simp [e1] at h1
      · by_cases e2 : y.toNat < x.toNat
        · simp [e2]
        · simp only [e1, e2, if_false] at h1 ⊢
          have hxy : x = y := char_toNat_inj x y (by omega)
          subst hxy
          exact ih ys h1 (fun h => h2 (by rw [h]))

theorem keyLt_irrefl (a : String) : keyLt a a = false := ltChars_irrefl _

theorem keyLt_asymm (a b : String) (h : keyLt a b = true) : keyLt b a = false :=
  ltChars_asymm _ _ h

theorem keyLt_trans (a b c : String) (h1 : keyLt a b = true) (h2 : keyLt b c = true) :
    keyLt a c = true := ltChars_trans _ _ _ h1 h2

theorem keyLt_total (a b : String) (h1 : keyLt a b = false) (h2 : a ≠ b) :
    keyLt b a = true :=
  ltChars_total _ _ h1 (fun h => h2 (String.ext h))

theorem keyLt_ne (a b : String) (h : keyLt a b = true) : a ≠ b := by
  rintro rfl
  rw [keyLt_irrefl] at h
  cases h

/-- Storing under a key above all keys of the map puts the entry last. -/
theorem mapSet_last (m : ViewCounts) (k : String) (v : Nat)
    (h : ∀ e ∈ m, keyLt e.1 k = true) : mapSet m k v = m ++ [(k, v)] := by
  induction m with
  | nil => rfl
  | cons e rest ih =>
    obtain ⟨k1, v1⟩ := e
    have h1 : keyLt k1 k = true := h (k1, v1) (by simp)
    have hne : ¬ k = k1 := fun heq => keyLt_ne _ _ h1 heq.symm
    have hlt : ¬ keyLt k k1 = true := by
      rw [keyLt_asymm _ _ h1]; simp
    rw [mapSet, if_neg hne, if_neg hlt, ih (fun e he => h e (by simp [he]))]
    rfl

theorem mapSet_keys (m : ViewCounts) (k : String) (v : Nat) :
    ∀ e ∈ mapSet m k v, e = (k, v) ∨ e ∈ m := by
  induction m with
  | nil => simp [mapSet]
  | cons e1 rest ih =>
    obtain ⟨k1, v1⟩ := e1
    unfold mapSet
    split
    · intro e he
      simp only [List.mem_cons] at he ⊢
      rcases he with h | h
      · exact Or.inl h
      · exact Or.inr (Or.inr h)
    split
    · intro e he
      simp only [List.mem_cons] at he ⊢
      exact he
    · intro e he
      simp only [List.mem_cons] at he ⊢
      rcases he with h | h
      · exact Or.inr (Or.inl h)
      · exact (ih e h).imp id Or.inr

theorem mapSet_sorted (m : ViewCounts) (k : String) (v : Nat) (h : keysSorted m) :
    keysSorted (mapSet m k v) := by
  induction m with
  | nil => simp [mapSet, keysSorted]
  | cons e1 rest ih =>
    obtain ⟨k1, v1⟩ := e1
    unfold keysSorted at h ih ⊢
    rw [List.pairwise_cons] at h
    unfold mapSet
    split
    · rename_i heq
      subst heq
      exact List.pairwise_cons.mpr ⟨h.1, h.2⟩
    split
    · rename_i hne hlt
      refine List.pairwise_cons.mpr ⟨?_, List.pairwise_cons.mpr h⟩
      intro e he
      simp only [List.mem_cons] at he
      rcases he with rfl | he
      · exact hlt
      · exact keyLt_trans _ _ _ hlt (h.1 e he)
    · rename_i hne hlt
      refine List.pairwise_cons.mpr ⟨?_, ih h.2⟩
      intro e he
      rcases mapSet_keys rest k v e he with rfl | he
      · exact keyLt_total _ _ (by simpa using hlt) hne
      · exact h.1 e he


/-! ## The scanner on what the encoder writes -/

theorem digitChar_toNat (d : Nat) (h : d < 10) : (digitChar d).toNat = 48 + d := by
  interval_cases d <;> rfl

theorem digitVal_digitChar (d : Nat) (h : d < 10) : digitVal? (digitChar d) = some d := by
  interval_cases d <;> rfl

theorem hexVal_hexChar (d : Nat) (h : d < 16) : hexVal? (hexChar d) = some d := by
  interval_cases d <;> rfl

theorem decimalAux_acc (fuel n : Nat) (acc : List Char) :
    decimalAux fuel n acc = decimalAux fuel n [] ++ acc := by
  induction fuel generalizing n acc with
  | zero => simp [decimalAux]
  | succ f ih =>
    unfold decimalAux
    split
    · simp
    · rw [ih, ih (n / 10) [digitChar (n % 10)]]
      simp

theorem decimalAux_fuel (f1 f2 n : Nat) (acc : List Char) (h1 : n < f1) (h2 : n < f2) :
    decimalAux f1 n acc = decimalAux f2 n acc := by
  induction f1 generalizing f2 n acc with
  | zero => omega
  | succ f ih =>
    cases f2 with
    | zero => omega
    | succ g =>
      unfold decimalAux
      split
      · rfl
      · apply ih <;> omega

theorem decimal_small (n : Nat) (h : n < 10) : decimal n = [digitChar n] := by
  simp [decimal, decimalAux, h]

theorem decimal_step (n : Nat) (h : 10 ≤ n) :
    decimal n = decimal (n / 10) ++ [digitChar (n % 10)] := by
  have h1 : ¬ n < 10 := by omega
  rw [decimal, decimalAux, if_neg h1, decimalAux_acc, decimal]
  congr 1
  apply decimalAux_fuel <;> omega

theorem lex_decimal_pos (n : Nat) (hn : 0 < n) (toks : List Token) :
    (decimal n).foldl lexStep ⟨.out, toks⟩ = ⟨.num n, toks⟩ := by
  induction n using Nat.strong_induction_on with
  | _ n ih =>
    by_cases h : n < 10
    · rw [decimal_small n h]
      interval_cases n <;> rfl
    · have h10 : 10 ≤ n := by omega
      rw [decimal_step n h10, List.foldl_append, ih (n / 10) (by omega) (by omega)]
      simp only [List.foldl_cons, List.foldl_nil, lexStep]
      rw [digitVal_digitChar _ (by omega)]
      simp only
      congr 2
      omega

theorem lex_decimal (n : Nat) (toks : List Token) :
    (decimal n).foldl lexStep ⟨.out, toks⟩ = ⟨numMode n, toks⟩ := by
  by_cases h : n = 0
  · subst h; rfl
  · rw [lex_decimal_pos n (by omega)]
    simp [numMode, h]

theorem lex_num_comma (v : Nat) (toks : List Token) :
    lexStep ⟨numMode v, toks⟩ ',' = ⟨.out, toks ++ [.num v, .comma]⟩ := by
  unfold numMode
  split
  · subst_vars; simp [lexStep, digitVal?, lexOut]
  · simp [lexStep, digitVal?, lexOut]

theorem lex_num_newline (v : Nat) (toks : List Token) :
    lexStep ⟨numMode v, toks⟩ '\n' = ⟨.out, toks ++ [.num v]⟩ := by
  unfold numMode
  split
  · subst_vars; simp [lexStep, digitVal?, lexOut]
  · simp [lexStep, digitVal?, lexOut]

theorem lex_newline (depth : Nat) (toks : List Token) :
    (newline depth).foldl lexStep ⟨.out, toks⟩ = ⟨.out, toks⟩ := by
  have h : ∀ k, (List.replicate k ' ').foldl lexStep ⟨.out, toks⟩ = ⟨.out, toks⟩ := by
    intro k
    induction k with
    | zero => rfl
    | succ k ih => simpa [List.replicate_succ, lexStep, lexOut] using ih
  simp only [newline, List.foldl_cons]
  have : lexStep ⟨.out, toks⟩ '\n' = ⟨.out, toks⟩ := by simp [lexStep, lexOut]
  rw [this, h]

theorem lex_escape (c : Char) (acc : List Char) (toks : List Token) :
    (jsonEscape c).foldl lexStep ⟨.str acc, toks⟩ = ⟨.str (acc ++ [c]), toks⟩ := by
  unfold jsonEscape
  split
  · subst_vars; rfl
  split
  · subst_vars; rfl
  split
  · subst_vars; rfl
  split
  · subst_vars; rfl
  split
  · subst_vars; rfl
  split
  · rename_i h
    have hlt : c.toNat < 256 := by
      rcases h with h | h | h | h
      · omega
      · subst h; decide
      · subst h; decide
      · subst h; decide
    have h1 : hexVal? (hexChar (c.toNat / 16)) = some (c.toNat / 16) :=
      hexVal_hexChar _ (by omega)
    have h2 : hexVal? (hexChar (c.toNat % 16)) = some (c.toNat % 16) :=
      hexVal_hexChar _ (by omega)
    have h0 : hexVal? '0' = some 0 := rfl
    have hu : unescape? 'u' = none := rfl
    simp only [List.foldl_cons, List.foldl_nil, lexStep, h0, h1, h2]
    have hv : (0 * 16 + 0) * 16 + c.toNat / 16 = c.toNat / 16 := by omega
    have hn : c.toNat / 16 * 16 + c.toNat % 16 = c.toNat := by omega
    simp [hn, Char.ofNat_toNat]
    omega
  split
  · rename_i h
    have h2 : hexVal? (hexChar (c.toNat % 16)) = some (c.toNat % 16) :=
      hexVal_hexChar _ (by omega)
    have h0 : hexVal? '0' = some 0 := rfl
    have h22 : hexVal? '2' = some 2 := rfl
    simp only [List.foldl_cons, List.foldl_nil, lexStep, h0, h22, h2]
    have hn : 514 * 16 + c.toNat % 16 = c.toNat := by omega
    simp [hn, Char.ofNat_toNat]
    omega
  · rename_i h1 h2 h3 h4 h5 h6 h7
    have : ¬ c.toNat < 32 := fun h => h6 (Or.inl h)
    simp [lexStep, h1, h2, this]

theorem lex_escapeAll (s acc : List Char) (toks : List Token) :
    (jsonEscapeAll s).foldl lexStep ⟨.str acc, toks⟩ = ⟨.str (acc ++ s), toks⟩ := by
  induction s generalizing acc with
  | nil => simp [jsonEscapeAll]
  | cons c cs ih =>
    rw [jsonEscapeAll, List.foldl_append, lex_escape, ih]
    simp

theorem lex_string (s : List Char) (toks : List Token) :
    (jsonString s).foldl lexStep ⟨.out, toks⟩ = ⟨.out, toks ++ [.str s]⟩ := by
  have h1 : lexStep ⟨.out, toks⟩ '"' = ⟨.str [], toks⟩ := rfl
  simp only [jsonString, List.foldl_cons, h1, List.foldl_append, lex_escapeAll, List.nil_append,
    List.foldl_nil]
  simp [lexStep]


/-! ## Timestamps -/

theorem digits2_pad (n : Nat) (h : n < 100) :
    digits2? (digitChar (n / 10 % 10)) (digitChar (n % 10)) = some n := by
  unfold digits2?
  rw [digitVal_digitChar _ (by omega), digitVal_digitChar _ (by omega)]
  simp only [Option.some.injEq]
  omega

theorem digitsVal_acc (acc : Nat) (l : List Char) :
    digitsVal acc l = acc * 10 ^ l.length + digitsVal 0 l := by
  induction l generalizing acc with
  | nil => simp [digitsVal]
  | cons c cs ih =>
    rw [digitsVal, ih, digitsVal, ih (0 * 10 + _)]
    simp only [List.length_cons, pow_succ]
    ring

theorem trimZeros_cons_nil (c : Char) (cs : List Char) (h : trimZeros cs = []) :
    trimZeros (c :: cs) = if c = '0' then [] else [c] := by
  rw [trimZeros, h]

theorem trimZeros_cons_ne (c : Char) (cs : List Char) (h : trimZeros cs ≠ []) :
    trimZeros (c :: cs) = c :: trimZeros cs := by
  rw [trimZeros]
  split
  · rename_i h2; exact absurd h2 h
  · rfl

theorem trimZeros_length (l : List Char) : (trimZeros l).length ≤ l.length := by
  induction l with
  | nil => simp [trimZeros]
  | cons c cs ih =>
    by_cases h : trimZeros cs = []
    · rw [trimZeros_cons_nil c cs h]
      split <;> simp
    · rw [trimZeros_cons_ne c cs h]
      simp only [List.length_cons]
      omega

theorem trimZeros_mem (l : List Char) : ∀ c ∈ trimZeros l, c ∈ l := by
  induction l with
  | nil => simp [trimZeros]
  | cons c cs ih =>
    by_cases h : trimZeros cs = []
    · rw [trimZeros_cons_nil c cs h]
      split <;> simp
    · rw [trimZeros_cons_ne c cs h]
      intro x hx
      simp only [List.mem_cons] at hx ⊢
      exact hx.imp id (ih x)

theorem trimZeros_val (l : List Char) :
    digitsVal 0 (trimZeros l) * 10 ^ (l.length - (trimZeros l).length) = digitsVal 0 l := by
  induction l with
  | nil => simp [trimZeros, digitsVal]
  | cons c cs ih =>
    have hlen := trimZeros_length cs
    by_cases h : trimZeros cs = []
    · rw [trimZeros_cons_nil c cs h]
      rw [h] at ih
      simp only [digitsVal, List.length_nil, Nat.sub_zero, zero_mul] at ih
      rw [digitsVal, digitsVal_acc _ cs, ← ih]
      split
      · rename_i hc
        subst hc
        simp [digitsVal, digitVal?]
      · simp [digitsVal]
    · rw [trimZeros_cons_ne c cs h]
      obtain ⟨j, hj⟩ : ∃ j, cs.length = (trimZeros cs).length + j :=
        ⟨cs.length - (trimZeros cs).length, by omega⟩
      rw [digitsVal, digitsVal_acc, digitsVal, digitsVal_acc _ cs, ← ih]
      simp only [List.length_cons, hj, Nat.add_sub_cancel_left, Nat.add_right_comm _ j 1,
        pow_add]
      ring

theorem pad9_val (n : Nat) (h : n < 1000000000) : digitsVal 0 (pad9 n) = n := by
  simp only [pad9, digitsVal]
  repeat rw [digitVal_digitChar _ (by omega)]
  simp only [Option.getD_some]
  omega

theorem pad9_allDigits (n : Nat) : allDigits (pad9 n) := by
  intro c hc
  simp only [pad9, List.mem_cons, List.mem_singleton, List.not_mem_nil, or_false] at hc
  rcases hc with h | h | h | h | h | h | h | h | h <;> subst h <;>
    rw [digitVal_digitChar _ (by omega)] <;> rfl

theorem readFraction_digits (ds rest : List Char) (c : Char) (left acc : Nat)
    (hd : allDigits ds) (hc : digitVal? c = none) (hlen : ds.length ≤ left)
    (hne : left - ds.length ≠ 9) :
    readFraction left acc (ds ++ c :: rest)
      = some (digitsVal acc ds * 10 ^ (left - ds.length), c :: rest) := by
  induction ds generalizing left acc with
  | nil =>
    simp only [List.nil_append, readFraction, hc, digitsVal, List.length_nil, Nat.sub_zero]
    simp only [List.length_nil, Nat.sub_zero] at hne
    simp [hne]
  | cons d ds ih =>
    have hd1 : (digitVal? d).isSome = true := hd d (by simp)
    obtain ⟨v, hv⟩ := Option.isSome_iff_exists.mp hd1
    simp only [List.length_cons] at hlen hne
    obtain ⟨l, rfl⟩ : ∃ l, left = l + 1 := ⟨left - 1, by omega⟩
    simp only [List.cons_append, readFraction, hv, digitsVal, Option.getD_some]
    rw [ih l _ (fun x hx => hd x (by simp [hx])) (by omega) (by omega)]
    simp

theorem parseZone_formatZone (z : Int) (h1 : -1440 < z) (h2 : z < 1440) :
    parseZone (formatZone z) = some z := by
  unfold formatZone
  split
  · subst_vars; rfl
  split
  · have hz : z.toNat < 1440 := by omega
    have e1 := digits2_pad (z.toNat / 60) (by omega)
    have e2 := digits2_pad (z.toNat % 60) (by omega)
    simp only [pad2, List.cons_append, List.nil_append, parseZone, e1, e2]
    have h3 : z.toNat / 60 < 24 := by omega
    have h4 : z.toNat % 60 < 60 := by omega
    simp only [h3, h4, and_self, if_true]
    congr 1
    omega
  · have hz : (-z).toNat < 1440 := by omega
    have e1 := digits2_pad ((-z).toNat / 60) (by omega)
    have e2 := digits2_pad ((-z).toNat % 60) (by omega)
    simp only [pad2, List.cons_append, List.nil_append, parseZone, e1, e2]
    have h3 : (-z).toNat / 60 < 24 := by omega
    have h4 : (-z).toNat % 60 < 60 := by omega
    have h5 : ¬ ('-' = '+') := by decide
    simp only [h3, h4, and_self, if_true, h5, if_false]
    congr 1
    omega

theorem formatZone_head (z : Int) :
    ∃ c rest, formatZone z = c :: rest ∧ digitVal? c = none ∧ c ≠ '.' := by
  unfold formatZone
  split
  · exact ⟨_, _, rfl, by decide, by decide⟩
  split
  · exact ⟨_, _, rfl, by decide, by decide⟩
  · exact ⟨_, _, rfl, by decide, by decide⟩

theorem parseFractionZone_format (nano : Nat) (z : Int) (hn : nano < 1000000000)
    (h1 : -1440 < z) (h2 : z < 1440) :
    parseFractionZone (formatFraction nano ++ formatZone z) = some (nano, z) := by
  obtain ⟨c, rest, hz, hc, hdot⟩ := formatZone_head z
  unfold formatFraction
  split
  · subst_vars
    rw [List.nil_append, hz, parseFractionZone, if_neg hdot, ← hz, parseZone_formatZone z h1 h2]
    rfl
  · rename_i hne
    have hval := trimZeros_val (pad9 nano)
    rw [pad9_val nano hn] at hval
    have hlen := trimZeros_length (pad9 nano)
    have h9 : (pad9 nano).length = 9 := rfl
    rw [h9] at hval hlen
    have hne2 : 9 - (trimZeros (pad9 nano)).length ≠ 9 := by
      intro h
      have h0 : (trimZeros (pad9 nano)).length = 0 := by omega
      rw [List.length_eq_zero.mp h0] at hval
      simp [digitsVal] at hval
      exact hne hval.symm
    have hd : allDigits (trimZeros (pad9 nano)) :=
      fun x hx => pad9_allDigits nano x (trimZeros_mem _ x hx)
    simp only [List.cons_append, parseFractionZone, if_true, hz]
    rw [readFraction_digits _ rest c 9 0 hd hc hlen hne2, hval]
    simp only [← hz, parseZone_formatZone z h1 h2, Option.map_some']

theorem parseRFC3339_format (t : Time) (hv : t.valid) (hy : t.year ≤ 9999) :
    parseRFC3339 (formatRFC3339Nano t) = some t := by
  have hv2 := hv
  obtain ⟨hm1, hm2, hd1, hd2, hh, hmi, hs, hn, hz1, hz2⟩ := hv2
  have hday : t.day < 100 := by
    have : daysIn t.year t.month ≤ 31 := by
      unfold daysIn; split_ifs <;> omega
    omega
  have e1 := digits2_pad (t.year / 100) (by omega)
  have e2 := digits2_pad (t.year % 100) (by omega)
  have e3 := digits2_pad t.month (by omega)
  have e4 := digits2_pad t.day hday
  have e5 := digits2_pad t.hour (by omega)
  have e6 := digits2_pad t.minute (by omega)
  have e7 := digits2_pad t.second (by omega)
  have e8 := parseFractionZone_format t.nano t.zone hn hz1 hz2
  have hyear : t.year / 100 * 100 + t.year % 100 = t.year := by omega
  simp only [formatRFC3339Nano, pad4, pad2, List.cons_append, List.nil_append, parseRFC3339,
    e1, e2, e3, e4, e5, e6, e7, e8, hyear]
  have ht : (⟨t.year, t.month, t.day, t.hour, t.minute, t.second, t.nano, t.zone⟩ : Time) = t :=
    rfl
  simp only [ht, hv, and_self, if_true]


/-! ## The scanner on an encoded series -/

theorem lex_plain (s acc : List Char) (toks : List Token) (h : ∀ c ∈ s, plainChar c) :
    s.foldl lexStep ⟨.str acc, toks⟩ = ⟨.str (acc ++ s), toks⟩ := by
  induction s generalizing acc with
  | nil => simp
  | cons c cs ih =>
    obtain ⟨h1, h2, h3⟩ := h c (by simp)
    have h4 : ¬ c.toNat < 32 := by omega
    rw [List.foldl_cons]
    have : lexStep ⟨.str acc, toks⟩ c = ⟨.str (acc ++ [c]), toks⟩ := by
      simp [lexStep, h1, h2, h4]
    rw [this, ih _ (fun x hx => h x (by simp [hx]))]
    simp

theorem digitChar_plain (d : Nat) (h : d < 10) : plainChar (digitChar d) := by
  interval_cases d <;> exact ⟨by decide, by decide, by decide⟩

theorem pad2_plain (n : Nat) : ∀ c ∈ pad2 n, plainChar c := by
  intro c hc
  simp only [pad2, List.mem_cons, List.mem_singleton, List.not_mem_nil, or_false] at hc
  rcases hc with h | h <;> subst h <;> exact digitChar_plain _ (by omega)

theorem pad9_plain (n : Nat) : ∀ c ∈ pad9 n, plainChar c := by
  intro c hc
  simp only [pad9, List.mem_cons, List.mem_singleton, List.not_mem_nil, or_false] at hc
  rcases hc with h | h | h | h | h | h | h | h | h <;> subst h <;>
    exact digitChar_plain _ (by omega)

theorem formatRFC3339Nano_plain (t : Time) : ∀ c ∈ formatRFC3339Nano t, plainChar c := by
  have hp : ∀ c : Char, c = '-' ∨ c = 'T' ∨ c = ':' ∨ c = '.' ∨ c = 'Z' ∨ c = '+' →
      plainChar c := by
    intro c hc
    rcases hc with h | h | h | h | h | h <;> subst h <;> exact ⟨by decide, by decide, by decide⟩
  intro c hc
  simp only [formatRFC3339Nano, pad4, formatFraction, formatZone, List.mem_append,
    List.mem_cons] at hc
  rcases hc with (h | h) | h | h | h | h | h | h | h | h | h | h | h | h
  · exact pad2_plain _ c h
  · exact pad2_plain _ c h
  · exact hp c (by simp [h])
  · exact pad2_plain _ c h
  · exact hp c (by simp [h])
  · exact pad2_plain _ c h
  · exact hp c (by simp [h])
  · exact pad2_plain _ c h
  · exact hp c (by simp [h])
  · exact pad2_plain _ c h
  · exact hp c (by simp [h])
  · exact pad2_plain _ c h
  · split at h
    · simp at h
    · simp only [List.mem_cons] at h
      rcases h with h | h
      · exact hp c (by simp [h])
      · exact pad9_plain _ c (trimZeros_mem _ c h)
  · split at h
    · simp only [List.mem_singleton] at h
      exact hp c (by simp [h])
    split at h
    · simp only [List.mem_cons, List.mem_append] at h
      rcases h with h | h | h | h
      · exact hp c (by simp [h])
      · exact pad2_plain _ c h
      · exact hp c (by simp [h])
      · exact pad2_plain _ c h
    · simp only [List.mem_cons, List.mem_append] at h
      rcases h with h | h | h | h
      · exact hp c (by simp [h])
      · exact pad2_plain _ c h
      · exact hp c (by simp [h])
      · exact pad2_plain _ c h

theorem lex_timestamp (t : Time) (toks : List Token) :
    ('"' :: (formatRFC3339Nano t ++ ['"'])).foldl lexStep ⟨.out, toks⟩
      = ⟨.out, toks ++ [.str (formatRFC3339Nano t)]⟩ := by
  have h1 : lexStep ⟨.out, toks⟩ '"' = ⟨.str [], toks⟩ := rfl
  rw [List.foldl_cons, h1, List.foldl_append, lex_plain _ _ _ (formatRFC3339Nano_plain t)]
  simp [lexStep]

theorem lex_member (e : String × Nat) (toks : List Token) :
    (encodeMember e).foldl lexStep ⟨.out, toks⟩
      = ⟨numMode e.2, toks ++ [.str e.1.data, .colon]⟩ := by
  have h1 : ∀ tk, lexStep ⟨.out, tk⟩ ':' = ⟨.out, tk ++ [.colon]⟩ := fun _ => rfl
  have h2 : ∀ tk, lexStep ⟨.out, tk⟩ ' ' = ⟨.out, tk⟩ := fun _ => rfl
  rw [encodeMember, List.foldl_append, lex_string, List.foldl_cons, h1, List.foldl_cons, h2,
    lex_decimal]
  simp

theorem lex_moreMembers (depth : Nat) (es : List (String × Nat)) (v : Nat)
    (toks : List Token) :
    lexStep ((encodeMoreMembers depth es).foldl lexStep ⟨numMode v, toks⟩) '\n'
      = ⟨.out, toks ++ .num v :: moreMemberToks es⟩ := by
  induction es generalizing v toks with
  | nil =>
    simp only [encodeMoreMembers, List.foldl_nil, lex_num_newline, moreMemberToks]
  | cons e es ih =>
    simp only [encodeMoreMembers, List.foldl_cons, List.foldl_append, lex_num_comma,
      lex_newline, lex_member]
    rw [ih]
    simp [moreMemberToks, memberToks]

theorem lex_spaces (k : Nat) (toks : List Token) :
    (List.replicate k ' ').foldl lexStep ⟨.out, toks⟩ = ⟨.out, toks⟩ := by
  induction k with
  | zero => rfl
  | succ k ih => simpa [List.replicate_succ, lexStep, lexOut] using ih

theorem lex_lbrace (toks : List Token) :
    lexStep ⟨.out, toks⟩ '\x7b' = ⟨.out, toks ++ [.lbrace]⟩ := rfl

theorem lex_rbrace (toks : List Token) :
    lexStep ⟨.out, toks⟩ '\x7d' = ⟨.out, toks ++ [.rbrace]⟩ := rfl

theorem lex_lbrack (toks : List Token) :
    lexStep ⟨.out, toks⟩ '[' = ⟨.out, toks ++ [.lbrack]⟩ := rfl

theorem lex_rbrack (toks : List Token) :
    lexStep ⟨.out, toks⟩ ']' = ⟨.out, toks ++ [.rbrack]⟩ := rfl

theorem lex_colon (toks : List Token) :
    lexStep ⟨.out, toks⟩ ':' = ⟨.out, toks ++ [.colon]⟩ := rfl

theorem lex_comma (toks : List Token) :
    lexStep ⟨.out, toks⟩ ',' = ⟨.out, toks ++ [.comma]⟩ := rfl

theorem lex_space (toks : List Token) :
    lexStep ⟨.out, toks⟩ ' ' = ⟨.out, toks⟩ := rfl

theorem lex_moreMembers_newline (depth d2 : Nat) (es : List (String × Nat)) (v : Nat)
    (toks : List Token) :
    (newline d2).foldl lexStep ((encodeMoreMembers depth es).foldl lexStep ⟨numMode v, toks⟩)
      = ⟨.out, toks ++ .num v :: moreMemberToks es⟩ := by
  rw [newline, List.foldl_cons, lex_moreMembers, lex_spaces]

theorem lex_counts (depth : Nat) (m : ViewCounts) (toks : List Token) :
    (encodeCounts depth m).foldl lexStep ⟨.out, toks⟩ = ⟨.out, toks ++ countsToks m⟩ := by
  cases m with
  | nil => simp [encodeCounts, countsToks, lex_lbrace, lex_rbrace]
  | cons e es =>
    rw [encodeCounts, List.foldl_cons, lex_lbrace, List.foldl_append, lex_newline,
      List.foldl_append, lex_member, List.foldl_append, List.foldl_append,
      lex_moreMembers_newline, List.foldl_cons, lex_rbrace, List.foldl_nil]
    simp [countsToks, memberToks]

theorem encodePoint_ok (p : dataPoint) (hy : p.Time.year ≤ 9999) :
    encodePoint p = .ok (pointBytes p) := by
  simp [encodePoint, marshalTime, hy, pointBytes]

theorem lex_point (p : dataPoint) (toks : List Token) :
    (pointBytes p).foldl lexStep ⟨.out, toks⟩ = ⟨.out, toks ++ pointToks p⟩ := by
  rw [pointBytes, List.foldl_cons, lex_lbrace, List.foldl_append, lex_newline,
    List.foldl_append, lex_string, List.foldl_cons, lex_colon, List.foldl_cons, lex_space,
    List.foldl_append, lex_timestamp, List.foldl_cons, lex_comma, List.foldl_append,
    lex_newline, List.foldl_append, lex_string, List.foldl_cons, lex_colon, List.foldl_cons,
    lex_space, List.foldl_append, lex_counts, List.foldl_append, lex_newline, List.foldl_cons,
    lex_rbrace, List.foldl_nil]
  simp [pointToks]


theorem encodeMorePoints_ok (ps : List dataPoint) (hy : ∀ p ∈ ps, p.Time.year ≤ 9999) :
    encodeMorePoints ps = .ok (morePointBytes ps) := by
  induction ps with
  | nil => rfl
  | cons p ps ih =>
    rw [encodeMorePoints, encodePoint_ok p (hy p (by simp)),
      ih (fun q hq => hy q (by simp [hq]))]
    rfl

theorem jsonEncode_ok (s : Slice dataPoint) (hy : ∀ p ∈ s.elems, p.Time.year ≤ 9999) :
    jsonEncode s = .ok (seriesBytes s) := by
  cases s with
  | none => rfl
  | some l =>
    cases l with
    | nil => rfl
    | cons p ps =>
      have h1 := encodePoint_ok p (hy p (by simp [Slice.elems]))
      have h2 := encodeMorePoints_ok ps (fun q hq => hy q (by simp [Slice.elems, hq]))
      rw [jsonEncode, h1, h2]
      rfl

theorem lex_morePoints (ps : List dataPoint) (toks : List Token) :
    (morePointBytes ps).foldl lexStep ⟨.out, toks⟩ = ⟨.out, toks ++ morePointToks ps⟩ := by
  induction ps generalizing toks with
  | nil => simp [morePointBytes, morePointToks]
  | cons p ps ih =>
    rw [morePointBytes, List.foldl_cons, lex_comma, List.foldl_append, lex_newline,
      List.foldl_append, lex_point, ih]
    simp [morePointToks]

theorem jsonLex_seriesBytes (s : Slice dataPoint) : jsonLex (seriesBytes s) = seriesToks s := by
  cases s with
  | none => rfl
  | some l =>
    cases l with
    | nil => rfl
    | cons p ps =>
      have hnl : ∀ tk, lexStep ⟨.out, tk⟩ '\n' = ⟨.out, tk⟩ := fun _ => rfl
      rw [jsonLex, seriesBytes, List.foldl_cons, lex_lbrack, List.foldl_append, lex_newline,
        List.foldl_append, lex_point, List.foldl_append, lex_morePoints, List.foldl_append,
        lex_newline, List.foldl_cons, lex_rbrack, List.foldl_cons, hnl, List.foldl_nil]
      simp [lexEnd, seriesToks]

/-! ## The decoder on the tokens of a series -/

theorem parse_moreMembers (acc : List dataPoint) (t : Time) (es : List (String × Nat))
    (m : ViewCounts) (rest : List Token) (hs : keysSorted (m ++ es))
    (hv : ∀ e ∈ es, e.2 < 18446744073709551616) :
    (moreMemberToks es ++ .rbrace :: rest).foldl parseStep (.afterMember acc t m)
      = rest.foldl parseStep (.closeElem acc t (m ++ es)) := by
  induction es generalizing m with
  | nil => simp [moreMemberToks, parseStep]
  | cons e es ih =>
    obtain ⟨k, v⟩ := e
    have hlt : v < 18446744073709551616 := hv (k, v) (by simp)
    have hlast : mapSet m k v = m ++ [(k, v)] := by
      apply mapSet_last
      intro e he
      unfold keysSorted at hs
      rw [List.pairwise_append] at hs
      exact hs.2.2 e he (k, v) (by simp)
    have hk : String.mk k.data = k := rfl
    simp only [moreMemberToks, memberToks, List.cons_append, List.nil_append, List.foldl_cons,
      parseStep, hlt, if_true, hk, hlast]
    rw [ih (m ++ [(k, v)]) (by simpa using hs) (fun e he => hv e (by simp [he]))]
    simp

theorem parse_counts (acc : List dataPoint) (t : Time) (m : ViewCounts) (rest : List Token)
    (hs : keysSorted m) (hv : ∀ e ∈ m, e.2 < 18446744073709551616) :
    (countsToks m ++ rest).foldl parseStep (.counts acc t)
      = rest.foldl parseStep (.closeElem acc t m) := by
  cases m with
  | nil => simp [countsToks, parseStep]
  | cons e es =>
    obtain ⟨k, v⟩ := e
    have hlt : v < 18446744073709551616 := hv (k, v) (by simp)
    have hk : String.mk k.data = k := rfl
    simp only [countsToks, memberToks, List.cons_append, List.nil_append, List.foldl_cons,
      parseStep, hlt, if_true, hk, mapSet, List.append_assoc]
    rw [parse_moreMembers acc t es [(k, v)] rest (by simpa using hs)
      (fun e he => hv e (by simp [he]))]
    simp

theorem parse_point (acc : List dataPoint) (first : Bool) (p : dataPoint) (rest : List Token)
    (hp : pointOK p) :
    (pointToks p ++ rest).foldl parseStep (.elem acc first)
      = rest.foldl parseStep (.afterElem (acc ++ [p])) := by
  obtain ⟨hv, hy, hs, hc⟩ := hp
  have ht := parseRFC3339_format p.Time hv hy
  simp only [pointToks, List.cons_append, List.foldl_cons, parseStep, if_true, ht,
    List.append_assoc]
  rw [parse_counts acc p.Time p.ViewCounts _ hs hc]
  simp [parseStep]

theorem parse_morePoints (acc ps : List dataPoint) (rest : List Token)
    (hp : ∀ p ∈ ps, pointOK p) :
    (morePointToks ps ++ .rbrack :: rest).foldl parseStep (.afterElem acc)
      = rest.foldl parseStep (.done (some (acc ++ ps))) := by
  induction ps generalizing acc with
  | nil => simp [morePointToks, parseStep]
  | cons p ps ih =>
    simp only [morePointToks, List.cons_append, List.foldl_cons, parseStep, List.append_assoc]
    rw [parse_point acc false p _ (hp p (by simp)),
      ih (acc ++ [p]) (fun q hq => hp q (by simp [hq]))]
    simp

theorem parse_done (r : Slice dataPoint) (rest : List Token) :
    rest.foldl parseStep (.done r) = .done r := by
  induction rest with
  | nil => rfl
  | cons t ts ih => simpa [parseStep] using ih

theorem parse_seriesToks (s : Slice dataPoint) (hs : seriesOK s) :
    (seriesToks s).foldl parseStep .start = .done s := by
  cases s with
  | none => rfl
  | some l =>
    cases l with
    | nil => rfl
    | cons p ps =>
      have h1 : pointOK p := hs p (by simp [Slice.elems])
      have h2 : ∀ q ∈ ps, pointOK q := fun q hq => hs q (by simp [Slice.elems, hq])
      simp only [seriesToks, List.foldl_cons, parseStep]
      rw [parse_point [] true p _ h1, parse_morePoints _ ps [] h2]
      simp

/-- Decoding what the encoder writes for a series gives the series back. -/
theorem jsonDecode_jsonEncode (s : Slice dataPoint) (hs : seriesOK s) :
    jsonEncode s = .ok (seriesBytes s) ∧ jsonDecode (seriesBytes s) = .ok s := by
  refine ⟨jsonEncode_ok s (fun p hp => (hs p hp).2.1), ?_⟩
  rw [jsonDecode, jsonLex_seriesBytes, parse_seriesToks s hs]


/-! ## What the decoder returns, what a cycle appends -/

theorem digitVal_le (c : Char) (d : Nat) (h : digitVal? c = some d) : d ≤ 9 := by
  unfold digitVal? at h
  split at h
  · simp only [Option.some.injEq] at h; omega
  · cases h

theorem digits2_lt (a b : Char) (n : Nat) (h : digits2? a b = some n) : n < 100 := by
  unfold digits2? at h
  cases ha : digitVal? a with
  | none => simp [ha] at h
  | some x =>
    cases hb : digitVal? b with
    | none => simp [ha, hb] at h
    | some y =>
      simp only [ha, hb, Option.some.injEq] at h
      have := digitVal_le a x ha
      have := digitVal_le b y hb
      omega

theorem parseRFC3339_ok (s : List Char) (t : Time) (h : parseRFC3339 s = some t) :
    t.valid ∧ t.year ≤ 9999 := by
  unfold parseRFC3339 at h
  split at h
  · split at h
    · rename_i yh yl mo da hh mi sec nano z e1 e2 e3 e4 e5 e6 e7 e8
      have b1 := digits2_lt _ _ _ e1
      have b2 := digits2_lt _ _ _ e2
      simp only at h
      split at h
      · rename_i hc
        simp only [Option.some.injEq] at h
        subst h
        exact ⟨hc.2.2.2.2.2, by simp only; omega⟩
      · cases h
    · cases h
  · cases h

theorem mapSet_bounded (m : ViewCounts) (k : String) (v : Nat)
    (hm : ∀ e ∈ m, e.2 < 18446744073709551616) (hv : v < 18446744073709551616) :
    ∀ e ∈ mapSet m k v, e.2 < 18446744073709551616 := by
  intro e he
  rcases mapSet_keys m k v e he with rfl | h
  · exact hv
  · exact hm e h

theorem pointOK_nil_counts (t : Time) (h : t.valid ∧ t.year ≤ 9999) : pointOK ⟨t, []⟩ :=
  ⟨h.1, h.2, by simp [keysSorted], by simp⟩

theorem parseStep_ok (m : ParseMode) (tok : Token) (h : modeOK m) : modeOK (parseStep m tok) := by
  cases m <;> cases tok <;> simp only [parseStep] <;> try trivial
  case start.lbrack => simp [modeOK]
  case start.null => simp [modeOK, seriesOK, Slice.elems]
  case elem.rbrack => split <;> first | exact h | trivial
  case key1.str => split <;> first | exact h | trivial
  case stamp.str acc ts =>
    cases ht : parseRFC3339 ts with
    | none => trivial
    | some t => exact ⟨h, pointOK_nil_counts t (parseRFC3339_ok ts t ht)⟩
  case key2.str => split <;> first | exact h | trivial
  case member.rbrace => split <;> first | exact h | trivial
  case count.num acc t m k v =>
    split
    · rename_i hv
      obtain ⟨h1, h2, h3, h4, h5⟩ := h
      exact ⟨h1, h2, h3, mapSet_sorted m _ v h4, mapSet_bounded m _ v h5 hv⟩
    · trivial
  case closeElem.rbrace acc t m =>
    intro p hp
    simp only [List.mem_append, List.mem_singleton] at hp
    rcases hp with hp | rfl
    · exact h.1 p hp
    · exact h.2

theorem parse_ok (toks : List Token) (m : ParseMode) (h : modeOK m) :
    modeOK (toks.foldl parseStep m) := by
  induction toks generalizing m with
  | nil => exact h
  | cons t ts ih => exact ih _ (parseStep_ok m t h)

/-- Whatever the decoder returns is a series of samples as `pointOK`
describes them. -/
theorem jsonDecode_seriesOK (bytes : List Char) (s : Slice dataPoint)
    (h : jsonDecode bytes = .ok s) : seriesOK s := by
  unfold jsonDecode at h
  have hok := parse_ok (jsonLex bytes) .start trivial
  cases hm : (jsonLex bytes).foldl parseStep .start <;> rw [hm] at h hok <;>
    simp only [Except.ok.injEq] at h <;> try cases h
  exact hok

theorem rangeSrcs_ok (srcs : List (String × ViewCountSource)) (st : LoopState)
    (hs : ∀ e ∈ srcs, e.2.vc < 18446744073709551616)
    (h1 : keysSorted st.vcs) (h2 : ∀ e ∈ st.vcs, e.2 < 18446744073709551616) :
    keysSorted (rangeSrcs srcs st).vcs ∧
    ∀ e ∈ (rangeSrcs srcs st).vcs, e.2 < 18446744073709551616 := by
  induction srcs generalizing st with
  | nil => exact ⟨h1, h2⟩
  | cons e rest ih =>
    obtain ⟨n, src⟩ := e
    have hrest : ∀ e ∈ rest, e.2.vc < 18446744073709551616 := fun e he => hs e (by simp [he])
    unfold rangeSrcs
    cases he : src.err with
    | some e => exact ih _ hrest h1 h2
    | none =>
      exact ih _ hrest (mapSet_sorted _ _ _ h1)
        (mapSet_bounded _ _ _ h2 (hs (n, src) (by simp)))

theorem cycleSample_ok (c : Cycle) (w : World) (hc : cycleOK c) : pointOK (cycleSample c w) := by
  obtain ⟨-, hv, hw⟩ := hc
  have h := rangeSrcs_ok c.srcs ⟨[], w.log, w.clock, w.queried⟩ hv (by simp [keysSorted])
    (by simp)
  exact ⟨(hw _).1, (hw _).2, h.1, h.2⟩

theorem updateViewCount_seriesOK (c : Cycle) (w : World) (hc : cycleOK c)
    (hw : seriesOK w.viewCounts) : seriesOK (updateViewCount c w).viewCounts := by
  intro p hp
  rw [updateViewCount_viewCounts] at hp
  simp only [Slice.elems, List.mem_append, List.mem_singleton] at hp
  rcases hp with hp | rfl
  · exact hw p hp
  · exact cycleSample_ok c w hc

theorem runTicks_seriesOK (cs : List Cycle) (w : World) (hc : ∀ c ∈ cs, cycleOK c)
    (hw : seriesOK w.viewCounts) : seriesOK (runTicks cs w).viewCounts := by
  induction cs generalizing w with
  | nil => exact hw
  | cons c cs ih =>
    exact ih _ (fun x hx => hc x (by simp [hx]))
      (updateViewCount_seriesOK c w (hc c (by simp)) hw)

theorem loadHistoricalData_seriesOK (d : Disk) : seriesOK (loadHistoricalData d).dps := by
  unfold loadHistoricalData osOpen
  cases d historicalFilename with
  | absent => simp [seriesOK, Slice.elems]
  | unreadable => simp [seriesOK, Slice.elems]
  | present bytes =>
    cases hj : jsonDecode bytes with
    | error e => simp [hj, seriesOK, Slice.elems]
    | ok dps => simpa [hj] using jsonDecode_seriesOK bytes dps hj

/-- Every series a run of the program holds, from the start of `main` through
any number of ticks, is a series as `seriesOK` describes it. -/
theorem run_seriesOK (first : Cycle) (d : Disk) (clock : Nat) (cs : List Cycle) (w : World)
    (hf : cycleOK first) (hc : ∀ c ∈ cs, cycleOK c)
    (hw : startup first d clock = .running w) : seriesOK (runTicks cs w).viewCounts := by
  apply runTicks_seriesOK cs w hc
  have hl := loadHistoricalData_seriesOK d
  unfold startup at hw
  cases he : (loadHistoricalData d).err with
  | some e => simp [he] at hw
  | none =>
    cases hd : (loadHistoricalData d).dps with
    | none =>
      simp only [he, hd, Proc.running.injEq] at hw
      subst hw
      exact updateViewCount_seriesOK first _ hf (by simp [seriesOK, Slice.elems])
    | some l =>
      simp only [he, hd, Proc.running.injEq] at hw
      subst hw
      rw [hd] at hl
      exact hl


/-! ## C6: saving a series and loading it back -/

/-- C6: for every series of samples a run holds (`seriesOK`: clock readings
as timestamps, `uint64` counts under distinct names, the counts map possibly
empty, any number of samples, the nil series included) and every disk, with
no fault on the write `saveHistoricalData` returns no error, and
`loadHistoricalData` on the disk it leaves returns no error and the very same
series: as many samples, in the same order, each with the same timestamp and
the same counts.  The same holds under any fault with which the save still
returns no error. -/
theorem save_load_roundtrip (s : Slice dataPoint) (d : Disk) (hs : seriesOK s) :
    (saveHistoricalData .none d s).1 = none ∧
    (loadHistoricalData (saveHistoricalData .none d s).2).err = none ∧
    (loadHistoricalData (saveHistoricalData .none d s).2).dps = s ∧
    (∀ fault, (saveHistoricalData fault d s).1 = none →
      (loadHistoricalData (saveHistoricalData fault d s).2).err = none ∧
      (loadHistoricalData (saveHistoricalData fault d s).2).dps = s) := by
  obtain ⟨henc, hdec⟩ := jsonDecode_jsonEncode s hs
  have hsave : (saveHistoricalData .none d s).1 = none := by
    simp [saveHistoricalData, henc]
  have hload : ∀ fault, (saveHistoricalData fault d s).1 = none →
      (loadHistoricalData (saveHistoricalData fault d s).2).err = none ∧
      (loadHistoricalData (saveHistoricalData fault d s).2).dps = s := by
    intro fault hf
    obtain ⟨bytes, hb, hd⟩ := saveHistoricalData_ok fault d s hf
    rw [henc] at hb
    simp only [Except.ok.injEq] at hb
    subst hb
    unfold loadHistoricalData osOpen
    rw [hd]
    simp only [hdec, and_self]
  exact ⟨hsave, (hload .none hsave).1, (hload .none hsave).2, hload⟩

/-- C6 on a series of two samples, one with two counts (the largest `uint64`
among them) and one with an empty counts map. -/
theorem save_load_roundtrip_witness :
    seriesOK exampleSeries ∧
    (saveHistoricalData .none emptyDisk exampleSeries).1 = none ∧
    (loadHistoricalData (saveHistoricalData .none emptyDisk exampleSeries).2).dps
      = exampleSeries :=
  ⟨by decide,
   (save_load_roundtrip exampleSeries emptyDisk (by decide)).1,
   (save_load_roundtrip exampleSeries emptyDisk (by decide)).2.2.1⟩

end Statscrobbler
